import Mathlib

/-! # failinject: atomic source rewrite and companion-file lifecycle

A shallow embedding of `main.go` of the `failinject` command (`gofail enable|disable`):
the per-file rewrite `xfrmFile`, the discovery functions `dir2files` and `paths2files`,
the companion writer `writeBinding` and the driver `main`.

The program is all file-system work, so the embedding is explicit state passing over a
`World`: a name space of files and directories, the failures the operating system may
report for reasons the name space does not show, and a trace of the calls made.
The functions of the Go standard library that the program calls (`os`, `path`,
`path/filepath`, `strings`) are embedded next to it, for a Unix system.
-/

namespace Failinject

/-! ## Data model -/

/-- File contents are sequences of bytes. -/
abbrev Bytes := List UInt8

/-- Modelled from the spec: the marker descriptor `code.Failpoint` of the package `code`,
which is not part of the sources at hand: an identifying name and a kind tag. The program
only looks at the length of a list of them and hands the list to the renderer. -/
structure Failpoint where
  name : String
  kind : String
  deriving DecidableEq, Repr

/-- The system error numbers that occur. -/
inductive Errno
  | ENOENT | EEXIST | EISDIR | ENOTDIR | ENOTEMPTY | EACCES | EXDEV | EIO
  deriving DecidableEq, Repr

/-- Go error values: `*os.PathError`, `*os.LinkError`, and any other error
(the ones a transform makes up). -/
inductive Error
  | pathError (op : String) (name : String) (errno : Errno)
  | linkError (op : String) (old : String) (new : String) (errno : Errno)
  | other (msg : String)
  deriving DecidableEq, Repr

/-- What a name of the file system denotes: a regular file with its content, or a
directory with the names of its entries in the order the system lists them. -/
inductive Node
  | file (content : Bytes)
  | dir (names : List String)
  deriving DecidableEq, Repr

/-- The flags of `os.OpenFile` that the program uses. -/
structure OpenFlags where
  write : Bool
  create : Bool
  excl : Bool
  trunc : Bool
  deriving DecidableEq, Repr

/-- What the program prints: the usage text, an error, or the version lines. -/
inductive Output
  | usage
  | err (e : Error)
  | version
  deriving DecidableEq, Repr

/-- The calls that reach the operating system, the run of a transform, and the lines
printed. -/
inductive Event
  | openFile (name : String) (flag : OpenFlags)
  | transform (src : String) (dst : String)
  | write (name : String) (content : Bytes)
  | remove (name : String)
  | rename (old : String) (new : String)
  | stat (name : String)
  | readdirnames (name : String)
  | getwd
  | println (line : Output)
  deriving DecidableEq, Repr

/-- The state of the machine the program runs on.

* `fs` is the name space. A name is what the program passes to the system; one name is
  one file (no symbolic or hard links).
* `openErr` and `renameErr` are the failures the system reports for reasons the name
  space does not show (permissions, a read-only or full volume, a rename across
  volumes); they apply when the name space itself would let the call through.
  Removing a file that exists, and writing to a file just opened for writing, succeed.
* `getwd` is what `os.Getwd` returns.
* `trace` lists the calls made so far, oldest first. -/
structure World where
  fs : String → Option Node
  openErr : String → OpenFlags → Option Errno
  renameErr : String → String → Option Errno
  getwd : Except Error String
  trace : List Event

/-- The name space with one name rebound. -/
def World.put (w : World) (name : String) (v : Option Node) : World :=
  { w with fs := fun q => if q = name then v else w.fs q }

/-- The world with one more call on its trace. -/
def World.log (w : World) (e : Event) : World :=
  { w with trace := w.trace ++ [e] }

/-- An open file, `*os.File`: the name it was opened under and what was found there. -/
structure File where
  name : String
  node : Node
  deriving DecidableEq, Repr

/-- What an `io.Reader` over an open file delivers when read to its end: the content of
a regular file, a read error for a directory. -/
def File.reader (f : File) : Except Errno Bytes :=
  match f.node with
  | .file c => .ok c
  | .dir _ => .error .EISDIR

/-! ## Package `os` -/

def os.O_RDONLY : OpenFlags := ⟨false, false, false, false⟩

/-- The flag word `os.O_WRONLY|os.O_CREATE|os.O_EXCL`. -/
def os.O_WRONLY_CREATE_EXCL : OpenFlags := ⟨true, true, true, false⟩

/-- The flag word `os.O_RDWR|os.O_CREATE|os.O_TRUNC`. -/
def os.O_RDWR_CREATE_TRUNC : OpenFlags := ⟨true, true, false, true⟩

/-- The call `os.OpenFile(name, flag, perm)`. An existing name fails an exclusive create
with `EEXIST`, and a directory cannot be opened for writing; a missing name is created
when asked for and is `ENOENT` otherwise; truncation empties a regular file. -/
def os.OpenFile (name : String) (flag : OpenFlags) (w : World) : Except Error File × World :=
  let w1 := w.log (.openFile name flag)
  match w.fs name with
  | some n =>
    if flag.create && flag.excl then (.error (.pathError "open" name .EEXIST), w1)
    else if flag.write && (match n with | .dir _ => true | .file _ => false) then
      (.error (.pathError "open" name .EISDIR), w1)
    else
      match w.openErr name flag with
      | some e => (.error (.pathError "open" name e), w1)
      | none =>
        if flag.trunc then (.ok ⟨name, .file []⟩, w1.put name (some (.file [])))
        else (.ok ⟨name, n⟩, w1)
  | none =>
    if flag.create then
      match w.openErr name flag with
      | some e => (.error (.pathError "open" name e), w1)
      | none => (.ok ⟨name, .file []⟩, w1.put name (some (.file [])))
    else (.error (.pathError "open" name .ENOENT), w1)

/-- The call `os.Open(name)`: `OpenFile(name, O_RDONLY, 0)`. -/
def os.Open (name : String) (w : World) : Except Error File × World :=
  os.OpenFile name os.O_RDONLY w

/-- The call `os.Create(name)`: `OpenFile(name, O_RDWR|O_CREATE|O_TRUNC, 0666)`. -/
def os.Create (name : String) (w : World) : Except Error File × World :=
  os.OpenFile name os.O_RDWR_CREATE_TRUNC w

/-- Writing `content` through a file opened for writing: the file then holds it. -/
def File.Write (f : File) (content : Bytes) (w : World) : World :=
  (w.log (.write f.name content)).put f.name (some (.file content))

/-- The call `os.Remove(name)`: removes a file or an empty directory. -/
def os.Remove (name : String) (w : World) : Option Error × World :=
  let w1 := w.log (.remove name)
  match w.fs name with
  | none => (some (.pathError "remove" name .ENOENT), w1)
  | some (.file _) => (none, w1.put name none)
  | some (.dir []) => (none, w1.put name none)
  | some (.dir (_ :: _)) => (some (.pathError "remove" name .ENOTEMPTY), w1)

/-- The call `os.Rename(oldpath, newpath)`: replaces `newpath` unless it is a directory. -/
def os.Rename (oldpath newpath : String) (w : World) : Option Error × World :=
  let w1 := w.log (.rename oldpath newpath)
  match w.fs oldpath with
  | none => (some (.linkError "rename" oldpath newpath .ENOENT), w1)
  | some n =>
    match w.fs newpath with
    | some (.dir _) => (some (.linkError "rename" oldpath newpath .EEXIST), w1)
    | _ =>
      match w.renameErr oldpath newpath with
      | some e => (some (.linkError "rename" oldpath newpath e), w1)
      | none => (none, (w1.put oldpath none).put newpath (some n))

/-- The result of `os.Stat`, as far as the program reads it: `Name()` and `IsDir()`. -/
structure FileInfo where
  name : String
  isDir : Bool
  deriving DecidableEq, Repr

/-- The first loop of `basename` in package `os`, on the reversed name: trailing slashes
go, but not the only character. -/
def os.basename.strip : List Char → List Char
  | c :: c' :: cs => if c = '/' then strip (c' :: cs) else c :: c' :: cs
  | l => l

/-- The helper `basename` of package `os`, which names the result of `os.Stat`: trailing
slashes go, then everything up to the last slash. -/
def os.basename (name : String) : String :=
  match os.basename.strip name.data.reverse with
  | [] => ""
  | c :: rest => ⟨(c :: rest.takeWhile (· ≠ '/')).reverse⟩

/-- The call `os.Stat(name)`. -/
def os.Stat (name : String) (w : World) : Except Error FileInfo × World :=
  let w1 := w.log (.stat name)
  match w.fs name with
  | none => (.error (.pathError "stat" name .ENOENT), w1)
  | some (.file _) => (.ok ⟨os.basename name, false⟩, w1)
  | some (.dir _) => (.ok ⟨os.basename name, true⟩, w1)

/-- The call `f.Readdirnames(0)`: the names of all entries of an open directory, in
directory order. -/
def File.Readdirnames (f : File) (w : World) : Except Error (List String) × World :=
  let w1 := w.log (.readdirnames f.name)
  match f.node with
  | .dir names => (.ok names, w1)
  | .file _ => (.error (.pathError "readdirent" f.name .ENOTDIR), w1)

/-- The call `os.Getwd()`. -/
def os.Getwd (w : World) : Except Error String × World :=
  (w.getwd, w.log .getwd)

/-! ## Packages `strings`, `path` and `path/filepath` -/

/-- The loop of `strings.Split` for a separator that is not empty: `skip` counts the
characters of a separator just found that are still to be passed over, `cur` is the
piece being collected. -/
def strings.Split.loop (sep : List Char) : List Char → Nat → List Char → List (List Char)
  | [], _, cur => [cur]
  | _ :: cs, skip + 1, cur => loop sep cs skip cur
  | c :: cs, 0, cur =>
    if sep.isPrefixOf (c :: cs) then cur :: loop sep cs (sep.length - 1) []
    else loop sep cs 0 (cur ++ [c])

/-- The function `strings.Split(s, sep)`: the pieces of `s` between the occurrences of
`sep`, taken from the left; for the empty separator, the characters of `s`. -/
def strings.Split (s sep : String) : List String :=
  if sep = "" then s.data.map (fun c => String.mk [c])
  else (strings.Split.loop sep.data s.data 0 []).map String.mk

/-- The scan of `path.Ext`, from the end of the path towards its start: `acc` is the part
of the path already passed. -/
def path.Ext.loop : List Char → List Char → List Char
  | [], _ => []
  | c :: cs, acc =>
    if c = '/' then [] else if c = '.' then c :: acc else loop cs (c :: acc)

/-- The function `path.Ext`: the suffix beginning at the last dot of the last element,
empty when there is no dot. -/
def path.Ext (p : String) : String :=
  ⟨path.Ext.loop p.data.reverse []⟩

/-- The function `path.Split`: the path up to and including its last slash, and the rest. -/
def path.Split (p : String) : String × String :=
  (⟨(p.data.reverse.dropWhile (· ≠ '/')).reverse⟩, ⟨(p.data.reverse.takeWhile (· ≠ '/')).reverse⟩)

/-- The function `path.Base`: the last element of the path, trailing slashes removed
first; `.` for the empty path and `/` for a path of slashes only. -/
def path.Base (p : String) : String :=
  if p = "" then "."
  else
    let stripped := p.data.reverse.dropWhile (· = '/')
    let last := (stripped.takeWhile (· ≠ '/')).reverse
    if last = [] then "/" else ⟨last⟩

/-- The step back over the last element written, for a `..` element in `path.Clean`:
`out` is the output so far in reverse without its last character `x`; characters go
while more than `dotdot` are left and the one just dropped is not a slash. -/
def path.Clean.backtrack (dotdot : Nat) : List Char → Char → List Char
  | [], _ => []
  | y :: out, x =>
    if (y :: out).length > dotdot ∧ x ≠ '/' then backtrack dotdot out y else y :: out

/-- The loop of `path.Clean` over the characters still to be read. `inElem` says that an
element is being copied, `out` is the output so far in reverse, `dotdot` is the length
of the output that a `..` element may not step back over. -/
def path.Clean.loop (rooted : Bool) : List Char → Bool → List Char → Nat → List Char
  | [], _, out, _ => out
  | c :: cs, true, out, dotdot =>
    if c = '/' then loop rooted cs false out dotdot else loop rooted cs true (c :: out) dotdot
  | c :: cs, false, out, dotdot =>
    if c = '/' then loop rooted cs false out dotdot
    else if c = '.' ∧ (cs = [] ∨ cs.head? = some '/') then loop rooted cs false out dotdot
    else
      match cs with
      | d :: cs' =>
        if c = '.' ∧ d = '.' ∧ (cs' = [] ∨ cs'.head? = some '/') then
          if out.length > dotdot then
            match out with
            | x :: out' => loop rooted cs' false (backtrack dotdot out' x) dotdot
            | [] => loop rooted cs' false out dotdot
          else if !rooted then
            let out1 := if out.length > 0 then '/' :: out else out
            loop rooted cs' false ('.' :: '.' :: out1) (out1.length + 2)
          else loop rooted cs' false out dotdot
        else
          let out1 := if (rooted ∧ out.length ≠ 1) ∨ (!rooted ∧ out.length ≠ 0) then '/' :: out else out
          loop rooted (d :: cs') true (c :: out1) dotdot
      | [] =>
        let out1 := if (rooted ∧ out.length ≠ 1) ∨ (!rooted ∧ out.length ≠ 0) then '/' :: out else out
        loop rooted [] true (c :: out1) dotdot

/-- The function `path.Clean`: the shortest path name equivalent to `p` by purely lexical
processing. -/
def path.Clean (p : String) : String :=
  if p = "" then "."
  else
    let rooted := p.data.head? = some '/'
    let out :=
      if rooted then path.Clean.loop true p.data.tail false ['/'] 1
      else path.Clean.loop false p.data false [] 0
    if out.length = 0 then "." else ⟨out.reverse⟩

/-- The function `path.Join`: the elements joined by slashes, empty elements ignored,
and the result cleaned; empty when all elements are. -/
def path.Join (elem : List String) : String :=
  let size := (elem.map String.length).sum
  if size = 0 then ""
  else
    path.Clean (elem.foldl (fun buf e =>
      if buf.length > 0 ∨ e ≠ "" then (if buf.length > 0 then buf ++ "/" else buf) ++ e
      else buf) "")

/-- The function `path.Dir`: the directory part of `path.Split`, cleaned. -/
def path.Dir (p : String) : String := path.Clean (path.Split p).1

/-- The function `filepath.Clean`, which on Unix is `path.Clean`. -/
def filepath.Clean (p : String) : String := path.Clean p

/-- The function `filepath.Join` on Unix: from the first element that is not empty on,
the elements joined by slashes, cleaned. -/
def filepath.Join : List String → String
  | [] => ""
  | e :: elem => if e ≠ "" then filepath.Clean ("/".intercalate (e :: elem)) else Join elem

/-- The function `filepath.IsAbs` on Unix. -/
def filepath.IsAbs (p : String) : Bool := p.data.head? = some '/'

/-- The function `filepath.Abs` on Unix. -/
def filepath.Abs (p : String) (w : World) : Except Error String × World :=
  if filepath.IsAbs p then (.ok (filepath.Clean p), w)
  else
    match os.Getwd w with
    | (.error err, w1) => (.error err, w1)
    | (.ok wd, w1) => (.ok (filepath.Join [wd, p]), w1)

/-! ## The rewrite of one file -/

/-- What a transform did: the bytes it wrote to its sink, the markers it reports, and
its error. -/
structure XfrmResult where
  written : Bytes
  fps : List Failpoint
  err : Option Error
  deriving DecidableEq, Repr

/-- The type `xfrmFunc`, `func(io.Writer, io.Reader) ([]*code.Failpoint, error)`: a
transform is a function of what it reads. -/
abbrev xfrmFunc := Except Errno Bytes → XfrmResult

/-- The call `xfrm(dst, src)`: the transform reads `src` and writes to `dst`. -/
def xfrmFunc.call (xfrm : xfrmFunc) (dst src : File) (w : World) : XfrmResult × World :=
  let r := xfrm src.reader
  (r, dst.Write r.written (w.log (.transform src.name dst.name)))

/-- The function `xfrmFile`. The result is the pair the Go function returns: the marker
list (`nil` is the empty list) and the error (`nil` is `none`). -/
def xfrmFile (xfrm : xfrmFunc) (path : String) (w : World) :
    (List Failpoint × Option Error) × World :=
  match os.Open path w with
  | (.error serr, w1) => (([], some serr), w1)
  | (.ok src, w1) =>
    match os.OpenFile (path ++ ".tmp") os.O_WRONLY_CREATE_EXCL w1 with
    | (.error derr, w2) => (([], some derr), w2)
    | (.ok dst, w2) =>
      match xfrm.call dst src w2 with
      | (r, w3) =>
        if r.err ≠ none ∨ r.fps.length = 0 then
          (([], r.err), (os.Remove dst.name w3).2)
        else
          match os.Rename dst.name path w3 with
          | (some rerr, w4) => (([], some rerr), (os.Remove dst.name w4).2)
          | (none, w4) => ((r.fps, none), w4)

/-- The world once the transform has run over an opened source holding `n`: the source
was opened, the temporary file created, and the transform's output written to it. -/
def xfrmFile.staged (xfrm : xfrmFunc) (path : String) (n : Node) (w : World) : World :=
  (((((w.log (.openFile path os.O_RDONLY)).log
      (.openFile (path ++ ".tmp") os.O_WRONLY_CREATE_EXCL)).put (path ++ ".tmp")
        (some (.file []))).log
      (.transform path (path ++ ".tmp"))).log
      (.write (path ++ ".tmp") (xfrm (File.reader ⟨path, n⟩)).written)).put (path ++ ".tmp")
    (some (.file (xfrm (File.reader ⟨path, n⟩)).written))

/-! ## Discovery -/

/-- The loop of `dir2files` over the names read. -/
def dir2files.loop (dir ext : String) : List String → List String → List String
  | [], ret => ret
  | f :: names, ret =>
    if path.Ext f ≠ ext then loop dir ext names ret
    else loop dir ext names (ret ++ [path.Join [dir, f]])

/-- The function `dir2files`. -/
def dir2files (dir ext : String) (w : World) : Except Error (List String) × World :=
  match filepath.Abs dir w with
  | (.error err, w1) => (.error err, w1)
  | (.ok dir, w1) =>
    match os.Open dir w1 with
    | (.error ferr, w2) => (.error ferr, w2)
    | (.ok f, w2) =>
      match f.Readdirnames w2 with
      | (.error rerr, w3) => (.error rerr, w3)
      | (.ok names, w3) => (.ok (dir2files.loop dir ext names []), w3)

/-- The process leaves through `os.Exit(code)` after printing `line`. -/
def exitWith (line : Output) (code : Nat) {α : Type} (w : World) : Except Nat α × World :=
  (.error code, w.log (.println line))

/-- The loop of `paths2files` over the paths given; `.error code` is `os.Exit(code)`. -/
def paths2files.loop : List String → List String → World → Except Nat (List String) × World
  | [], files, w => (.ok files, w)
  | p :: paths, files, w =>
    match os.Stat p w with
    | (.error serr, w1) => exitWith (.err serr) 1 w1
    | (.ok s, w1) =>
      if s.isDir then
        match dir2files p ".go" w1 with
        | (.error err, w2) => exitWith (.err err) 1 w2
        | (.ok fs, w2) => loop paths (files ++ fs) w2
      else if path.Ext s.name = ".go" then
        match filepath.Abs p w1 with
        | (.error err, w2) => exitWith (.err err) 1 w2
        | (.ok abs, w2) => loop paths (files ++ [abs]) w2
      else loop paths files w1

/-- The function `paths2files`. Its call of itself on the working directory is the loop
on that one path. -/
def paths2files (paths : List String) (w : World) : Except Nat (List String) × World :=
  if paths.length = 0 then
    match os.Getwd w with
    | (.error gerr, w1) => exitWith (.err gerr) 1 w1
    | (.ok wd, w1) => paths2files.loop [wd] [] w1
  else paths2files.loop paths [] w

/-! ## Companion files -/

/-- Modelled from the spec: the Binding Renderer `code.NewBinding(pkg, fps).Write(out)` of
the package `code`, which is not part of the sources at hand: the bytes rendered for a
package name and a marker list, a function of these two only. -/
abbrev Renderer := String → List Failpoint → Bytes

/-- The path of the companion file of `file`: the expression that `writeBinding` and the
disable branch of `main` both compute. -/
def companionPath (file : String) : String :=
  path.Join [path.Dir file, (strings.Split (path.Base file) ".go").headD "" ++ ".fail.go"]

/-- The function `writeBinding`; `.error code` is `os.Exit(code)`. -/
def writeBinding (NewBinding : Renderer) (file : String) (fps : List Failpoint) (w : World) :
    Except Nat Unit × World :=
  if fps.length = 0 then (.ok (), w)
  else
    let fname := (strings.Split (path.Base file) ".go").headD "" ++ ".fail.go"
    match os.Create (path.Join [path.Dir file, fname]) w with
    | (.error err, w1) => exitWith (.err err) 1 w1
    | (.ok out, w1) =>
      let pkgAbsDir := path.Dir file
      let pkg := path.Base pkgAbsDir
      (.ok (), out.Write (NewBinding pkg fps) w1)

/-! ## The driver -/

/-- The function `showVersion`. -/
def showVersion {α : Type} (w : World) : Except Nat α × World :=
  exitWith .version 0 w

/-- The first loop of `main`: each file is rewritten in turn and its markers are
collected; the first error ends the process. -/
def main.rewriteLoop (xfrm : xfrmFunc) :
    List String → List (List Failpoint) → World → Except Nat (List (List Failpoint)) × World
  | [], fps, w => (.ok fps, w)
  | path :: files, fps, w =>
    match xfrmFile xfrm path w with
    | ((_, some err), w1) => exitWith (.err err) 1 w1
    | ((curfps, none), w1) => rewriteLoop xfrm files (fps ++ [curfps]) w1

/-- The loop of the enable branch: `writeBinding(files[i], fps[i])` for each `i`. -/
def main.bindLoop (NewBinding : Renderer) :
    List String → List (List Failpoint) → World → Except Nat Unit × World
  | file :: files, curfps :: fps, w =>
    match writeBinding NewBinding file curfps w with
    | (.error code, w1) => (.error code, w1)
    | (.ok _, w1) => bindLoop NewBinding files fps w1
  | _, _, w => (.ok (), w)

/-- The loop of the disable branch: the companion of each file is removed, whatever
`os.Remove` answers. -/
def main.removeLoop : List String → World → World
  | [], w => w
  | file :: files, w =>
    let fname := (strings.Split (path.Base file) ".go").headD "" ++ ".fail.go"
    removeLoop files (os.Remove (path.Join [path.Dir file, fname]) w).2

/-- The part of `main` after discovery: the rewrites, then the companions. -/
def main.batch (xfrm : xfrmFunc) (enable : Bool) (NewBinding : Renderer) (files : List String)
    (w : World) : Except Nat Unit × World :=
  match main.rewriteLoop xfrm files [] w with
  | (.error code, w2) => (.error code, w2)
  | (.ok fps, w2) =>
    if enable then main.bindLoop NewBinding files fps w2
    else (.ok (), main.removeLoop files w2)

/-- The function `main` after its `switch`: discovery, then the batch. -/
def main.run (xfrm : xfrmFunc) (enable : Bool) (NewBinding : Renderer) (args : List String)
    (w : World) : Except Nat Unit × World :=
  match paths2files args w with
  | (.error code, w1) => (.error code, w1)
  | (.ok files, w1) => main.batch xfrm enable NewBinding files w1

/-- The function `main`. `Args` is `os.Args`; the transforms `code.ToFailpoints` and
`code.ToComments` and the renderer belong to the package `code`, which is not part of the
sources at hand, and are parameters. The result `.error code` is `os.Exit(code)`. -/
def main (ToFailpoints ToComments : xfrmFunc) (NewBinding : Renderer) (Args : List String)
    (w : World) : Except Nat Unit × World :=
  if Args.length < 2 then exitWith .usage 1 w
  else
    match Args.drop 1 with
    | "enable" :: args => main.run ToFailpoints true NewBinding args w
    | "disable" :: args => main.run ToComments false NewBinding args w
    | "--version" :: _ => showVersion w
    | _ => exitWith .usage 1 w

/-! ## The specification of discovery -/

/-- Two worlds that differ at most in their traces. -/
def World.agree (w v : World) : Prop :=
  w.fs = v.fs ∧ w.openErr = v.openErr ∧ w.renameErr = v.renameErr ∧ w.getwd = v.getwd

/-- The contribution of one path argument to the list of files, in the words of the
specification: the scan of a directory, the absolute path of a file whose name has the
source extension, nothing for another file; a path that does not exist, or a scan or an
absolute path that cannot be had, ends the run with exit code 1. -/
def Spec.contribution (p : String) (w : World) : Except Nat (List String) :=
  match w.fs p with
  | none => .error 1
  | some (.dir _) =>
    match (dir2files p ".go" w).1 with
    | .ok fs => .ok fs
    | .error _ => .error 1
  | some (.file _) =>
    if path.Ext (os.basename p) = ".go" then
      match (filepath.Abs p w).1 with
      | .ok abs => .ok [abs]
      | .error _ => .error 1
    else .ok []

/-- The list of files for the path arguments, in the words of the specification: the
contributions of the paths, concatenated in argument order. -/
def Spec.paths2files : List String → World → Except Nat (List String)
  | [], _ => .ok []
  | p :: paths, w =>
    match Spec.contribution p w, Spec.paths2files paths w with
    | .ok fs, .ok rest => .ok (fs ++ rest)
    | _, _ => .error 1

/-! ## Vocabulary for the claims about a run -/

/-- The calls that belong to the rewrite of `path`: opening it, creating, writing,
renaming and removing its temporary file, and the run of the transform between them. -/
def Event.rewrites (path : String) (c : Event) : Prop :=
  c = .openFile path os.O_RDONLY ∨
  c = .openFile (path ++ ".tmp") os.O_WRONLY_CREATE_EXCL ∨
  c = .transform path (path ++ ".tmp") ∨
  (∃ content, c = .write (path ++ ".tmp") content) ∨
  c = .rename (path ++ ".tmp") path ∨
  c = .remove (path ++ ".tmp")

/-- The calls of the enable branch for files and marker lists that go together: for each
file with markers, its companion is created or truncated and the rendered text written;
for a file without markers, nothing. -/
def main.bindCalls (NewBinding : Renderer) : List String → List (List Failpoint) → List Event
  | file :: files, curfps :: fps =>
    (if curfps = [] then []
      else [.openFile (companionPath file) os.O_RDWR_CREATE_TRUNC,
        .write (companionPath file) (NewBinding (path.Base (path.Dir file)) curfps)]) ++
      bindCalls NewBinding files fps
  | _, _ => []

/-! ## Sample inputs -/

/-- A sample activate transform: every byte `1` is a marker and becomes `2`. -/
def Sample.activate : xfrmFunc := fun r =>
  match r with
  | .error _ => ⟨[], [], some (.other "read")⟩
  | .ok c => ⟨c.map (fun b => if b = 1 then 2 else b),
      (c.filter (· = 1)).map (fun _ => ⟨"fp", "int"⟩), none⟩

/-- A sample deactivate transform: every byte `2` is a live marker and becomes `1`. -/
def Sample.deactivate : xfrmFunc := fun r =>
  match r with
  | .error _ => ⟨[], [], some (.other "read")⟩
  | .ok c => ⟨c.map (fun b => if b = 2 then 1 else b),
      (c.filter (· = 2)).map (fun _ => ⟨"fp", "int"⟩), none⟩

/-- A sample transform that fails after writing one byte. -/
def Sample.failing : xfrmFunc := fun _ => ⟨[9], [⟨"fp", "int"⟩], some (.other "bad marker")⟩

/-- A sample renderer: one byte per marker. -/
def Sample.render : Renderer := fun _ fps => fps.map (fun _ => 7)

/-- A sample name space: a directory `/d` with two sources, one with a marker, a text
file, and a subdirectory holding another source. -/
def Sample.fs : String → Option Node := fun q =>
  if q = "/d" then some (.dir ["a.go", "b.go", "sub", "c.txt"])
  else if q = "/d/a.go" then some (.file [0, 1, 3])
  else if q = "/d/b.go" then some (.file [5])
  else if q = "/d/c.txt" then some (.file [1])
  else if q = "/d/sub" then some (.dir ["n.go"])
  else if q = "/d/sub/n.go" then some (.file [1])
  else none

/-- A sample world over `Sample.fs` in which the system adds no failure of its own. -/
def Sample.world : World where
  fs := Sample.fs
  openErr := fun _ _ => none
  renameErr := fun _ _ => none
  getwd := .ok "/d"
  trace := []

/-- The sample world with a temporary file left behind next to `/d/b.go`. -/
def Sample.stuck : World := Sample.world.put "/d/b.go.tmp" (some (.file [4]))

/-- A sample world in which both sources of `/d` hold a marker and the companion of
`/d/a.go` cannot be opened for lack of permission. -/
def Sample.locked : World where
  fs := (Sample.world.put "/d/b.go" (some (.file [1, 6]))).fs
  openErr := fun name _ => if name = "/d/a.fail.go" then some .EACCES else none
  renameErr := fun _ _ => none
  getwd := .ok "/d"
  trace := []

/-- A sample deactivate transform that undoes `Sample.activate` byte for byte but reports
no marker. -/
def Sample.mute : xfrmFunc := fun r =>
  match r with
  | .error _ => ⟨[], [], some (.other "read")⟩
  | .ok c => ⟨c.map (fun b => if b = 2 then 1 else b), [], none⟩

/-- A sample world in which a directory that is not empty stands at the companion path
of `/d/b.go`. -/
def Sample.blocked : World :=
  ((Sample.world.put "/d" (some (.dir ["a.go", "b.go", "sub", "c.txt", "b.fail.go"]))).put
    "/d/b.fail.go" (some (.dir ["x"]))).put "/d/b.fail.go/x" (some (.file [8]))

/-! ## Facts about the model of the operating system -/

theorem tmp_ne (path : String) : path ++ ".tmp" ≠ path := by
  intro h
  have := congrArg String.length h
  simp at this
  exact absurd this (by decide)

@[simp] theorem World.log_fs (w : World) (e : Event) : (w.log e).fs = w.fs := rfl
@[simp] theorem World.put_trace (w : World) (p : String) (v : Option Node) : (w.put p v).trace = w.trace := rfl
@[simp] theorem World.log_trace (w : World) (e : Event) : (w.log e).trace = w.trace ++ [e] := rfl
@[simp] theorem World.put_fs (w : World) (p : String) (v : Option Node) (q : String) :
    (w.put p v).fs q = if q = p then v else w.fs q := rfl
@[simp] theorem World.log_openErr (w : World) (e : Event) : (w.log e).openErr = w.openErr := rfl
@[simp] theorem World.put_openErr (w : World) (p : String) (v : Option Node) : (w.put p v).openErr = w.openErr := rfl
@[simp] theorem World.log_renameErr (w : World) (e : Event) : (w.log e).renameErr = w.renameErr := rfl
@[simp] theorem World.put_renameErr (w : World) (p : String) (v : Option Node) : (w.put p v).renameErr = w.renameErr := rfl
@[simp] theorem World.log_getwd (w : World) (e : Event) : (w.log e).getwd = w.getwd := rfl
@[simp] theorem World.put_getwd (w : World) (p : String) (v : Option Node) : (w.put p v).getwd = w.getwd := rfl

/-- Opening for reading either fails and changes nothing, or yields what the name holds. -/
theorem os.Open_cases (name : String) (w : World) :
    (∃ e, os.Open name w = (.error e, w.log (.openFile name os.O_RDONLY))) ∨
    (∃ n, w.fs name = some n ∧
      os.Open name w = (.ok ⟨name, n⟩, w.log (.openFile name os.O_RDONLY))) := by
  unfold os.Open os.OpenFile
  cases hn : w.fs name with
  | none => left; exact ⟨.pathError "open" name .ENOENT, by simp [os.O_RDONLY]⟩
  | some n =>
    cases he : w.openErr name os.O_RDONLY with
    | some e => left; exact ⟨.pathError "open" name e, by simp [he]; simp [os.O_RDONLY]⟩
    | none => right; exact ⟨n, rfl, by simp [he]; simp [os.O_RDONLY]⟩

/-- An exclusive create either fails and changes nothing (with `EEXIST` when the name is
taken), or finds the name free and binds it to an empty file. -/
theorem os.OpenFile_excl_cases (name : String) (w : World) :
    (∃ e, os.OpenFile name os.O_WRONLY_CREATE_EXCL w =
        (.error e, w.log (.openFile name os.O_WRONLY_CREATE_EXCL)) ∧
      (w.fs name ≠ none → e = .pathError "open" name .EEXIST)) ∨
    (w.fs name = none ∧ os.OpenFile name os.O_WRONLY_CREATE_EXCL w =
      (.ok ⟨name, .file []⟩,
        (w.log (.openFile name os.O_WRONLY_CREATE_EXCL)).put name (some (.file [])))) := by
  unfold os.OpenFile
  cases hn : w.fs name with
  | some n =>
    left; exact ⟨.pathError "open" name .EEXIST, by simp [os.O_WRONLY_CREATE_EXCL], by simp⟩
  | none =>
    cases he : w.openErr name os.O_WRONLY_CREATE_EXCL with
    | some e =>
      left
      exact ⟨.pathError "open" name e, by simp [he]; simp [os.O_WRONLY_CREATE_EXCL], by simp⟩
    | none => right; exact ⟨rfl, by simp [he]; simp [os.O_WRONLY_CREATE_EXCL]⟩

/-- Removing a regular file unbinds its name. -/
theorem os.Remove_file {name : String} {w : World} {c : Bytes} (h : w.fs name = some (.file c)) :
    os.Remove name w = (none, (w.log (.remove name)).put name none) := by
  simp [os.Remove, h]

/-- A rename of an existing name either fails and changes nothing, or moves the node. -/
theorem os.Rename_cases {old : String} (new : String) {w : World} {n : Node}
    (h : w.fs old = some n) :
    (∃ e, os.Rename old new w = (some e, w.log (.rename old new))) ∨
    ((∀ names, w.fs new ≠ some (.dir names)) ∧ w.renameErr old new = none ∧
      os.Rename old new w = (none, ((w.log (.rename old new)).put old none).put new (some n))) := by
  unfold os.Rename
  simp only [h]
  cases hn : w.fs new with
  | none =>
    cases he : w.renameErr old new with
    | some e => left; exact ⟨.linkError "rename" old new e, by simp⟩
    | none => right; simp
  | some m =>
    cases m with
    | dir names => left; exact ⟨.linkError "rename" old new .EEXIST, by simp⟩
    | file c =>
      cases he : w.renameErr old new with
      | some e => left; exact ⟨.linkError "rename" old new e, by simp⟩
      | none => right; simp

theorem xfrmFile.staged_fs (xfrm : xfrmFunc) (path : String) (n : Node) (w : World) (q : String) :
    (xfrmFile.staged xfrm path n w).fs q =
      if q = path ++ ".tmp" then some (.file (xfrm (File.reader ⟨path, n⟩)).written) else w.fs q := by
  by_cases h : q = path ++ ".tmp" <;> simp [xfrmFile.staged, h]

/-- Unbinding a name that was free at first undoes every change made to that name. -/
theorem xfrmFile.discard_fs {w : World} (v : World) {tmp : String} (hfree : w.fs tmp = none)
    (h : ∀ q, q ≠ tmp → v.fs q = w.fs q) : (v.put tmp none).fs = w.fs := by
  funext q
  by_cases hq : q = tmp
  · simp [hq, hfree]
  · simp [hq, h q hq]

/-- The five ways through `xfrmFile`, each with the pair returned and the world left. -/
theorem xfrmFile_cases (xfrm : xfrmFunc) (path : String) (w : World) :
    (∃ e, (os.Open path w).1 = .error e ∧
      xfrmFile xfrm path w = (([], some e), w.log (.openFile path os.O_RDONLY))) ∨
    (∃ n e, w.fs path = some n ∧ (os.Open path w).1 = .ok ⟨path, n⟩ ∧
      (os.OpenFile (path ++ ".tmp") os.O_WRONLY_CREATE_EXCL
        (w.log (.openFile path os.O_RDONLY))).1 = .error e ∧
      (w.fs (path ++ ".tmp") ≠ none → e = .pathError "open" (path ++ ".tmp") .EEXIST) ∧
      xfrmFile xfrm path w = (([], some e),
        (w.log (.openFile path os.O_RDONLY)).log
          (.openFile (path ++ ".tmp") os.O_WRONLY_CREATE_EXCL))) ∨
    (∃ n, w.fs path = some n ∧ (os.Open path w).1 = .ok ⟨path, n⟩ ∧
      w.fs (path ++ ".tmp") = none ∧
      (((xfrm (File.reader ⟨path, n⟩)).err ≠ none ∨ (xfrm (File.reader ⟨path, n⟩)).fps = []) ∧
        xfrmFile xfrm path w = (([], (xfrm (File.reader ⟨path, n⟩)).err),
          ((xfrmFile.staged xfrm path n w).log (.remove (path ++ ".tmp"))).put
            (path ++ ".tmp") none) ∨
       ((xfrm (File.reader ⟨path, n⟩)).err = none ∧ (xfrm (File.reader ⟨path, n⟩)).fps ≠ [] ∧
        ∃ e, xfrmFile xfrm path w = (([], some e),
          (((xfrmFile.staged xfrm path n w).log (.rename (path ++ ".tmp") path)).log
            (.remove (path ++ ".tmp"))).put (path ++ ".tmp") none)) ∨
       ((xfrm (File.reader ⟨path, n⟩)).err = none ∧ (xfrm (File.reader ⟨path, n⟩)).fps ≠ [] ∧
        (∀ names, n ≠ .dir names) ∧
        xfrmFile xfrm path w = (((xfrm (File.reader ⟨path, n⟩)).fps, none),
          (((xfrmFile.staged xfrm path n w).log (.rename (path ++ ".tmp") path)).put
            (path ++ ".tmp") none).put path
              (some (.file (xfrm (File.reader ⟨path, n⟩)).written)))))) := by
  have hne : path ≠ path ++ ".tmp" := fun h => tmp_ne path h.symm
  rcases os.Open_cases path w with ⟨e, he⟩ | ⟨n, hn, ho⟩
  · left; exact ⟨e, by rw [he], by simp only [xfrmFile, he]⟩
  · right
    rcases os.OpenFile_excl_cases (path ++ ".tmp") (w.log (.openFile path os.O_RDONLY))
      with ⟨e, he, hex⟩ | ⟨hfree, hc⟩
    · left
      exact ⟨n, e, hn, by rw [ho], by rw [he], hex, by simp only [xfrmFile, ho, he]⟩
    · right
      refine ⟨n, hn, by rw [ho], hfree, ?_⟩
      have hst : (xfrmFile.staged xfrm path n w).fs (path ++ ".tmp") =
          some (.file (xfrm (File.reader ⟨path, n⟩)).written) := by
        simp [xfrmFile.staged_fs]
      by_cases hx : (xfrm (File.reader ⟨path, n⟩)).err ≠ none ∨
          (xfrm (File.reader ⟨path, n⟩)).fps = []
      · left
        refine ⟨hx, ?_⟩
        have hx2 : (xfrm (File.reader ⟨path, n⟩)).err ≠ none ∨
            (xfrm (File.reader ⟨path, n⟩)).fps.length = 0 := by
          simpa using hx
        simp only [xfrmFile, ho, hc, xfrmFunc.call, File.Write]
        rw [if_pos hx2]
        have := os.Remove_file hst
        simp only [xfrmFile.staged] at this
        rw [this]
        rfl
      · right
        have hx1 : (xfrm (File.reader ⟨path, n⟩)).err = none := by
          by_contra h; exact hx (Or.inl h)
        have hx0 : (xfrm (File.reader ⟨path, n⟩)).fps ≠ [] := fun h => hx (Or.inr h)
        have hx2 : ¬ ((xfrm (File.reader ⟨path, n⟩)).err ≠ none ∨
            (xfrm (File.reader ⟨path, n⟩)).fps.length = 0) := by
          simpa using hx
        rcases os.Rename_cases path hst with ⟨e, hr⟩ | ⟨hnd, _, hr⟩
        · left
          refine ⟨hx1, hx0, e, ?_⟩
          have hst2 : ((xfrmFile.staged xfrm path n w).log (.rename (path ++ ".tmp") path)).fs
              (path ++ ".tmp") = some (.file (xfrm (File.reader ⟨path, n⟩)).written) := hst
          have hrm := os.Remove_file hst2
          simp only [xfrmFile.staged] at hr hrm
          simp only [xfrmFile, ho, hc, xfrmFunc.call, File.Write]
          rw [if_neg hx2]
          simp only [hr, hrm]
          rfl
        · right
          refine ⟨hx1, hx0, ?_, ?_⟩
          · intro names h
            apply hnd names
            rw [xfrmFile.staged_fs, if_neg hne, hn, h]
          · simp only [xfrmFile.staged] at hr
            simp only [xfrmFile, ho, hc, xfrmFunc.call, File.Write]
            rw [if_neg hx2]
            simp only [hr]
            rfl

/-! ## The rewrite of one file: the claims -/

theorem os.Open_snd (name : String) (w : World) :
    (os.Open name w).2 = w.log (.openFile name os.O_RDONLY) := by
  rcases os.Open_cases name w with ⟨e, h⟩ | ⟨n, _, h⟩ <;> rw [h]

/-- C1: when the source opens, the temporary file is created and the transform returns an
error or no marker, `xfrmFile` returns no markers and exactly the transform's error
(none in the zero-marker case), the source holds what it held, no temporary file existed
before and none remains, and nothing else in the name space changed. -/
theorem xfrmFile_discard_untouched (xfrm : xfrmFunc) (path : String) (w : World)
    (src dst : File)
    (hopen : (os.Open path w).1 = .ok src)
    (hcreate : (os.OpenFile (path ++ ".tmp") os.O_WRONLY_CREATE_EXCL (os.Open path w).2).1
      = .ok dst)
    (hx : (xfrm src.reader).err ≠ none ∨ (xfrm src.reader).fps = []) :
    (xfrmFile xfrm path w).1 = ([], (xfrm src.reader).err) ∧
    (xfrmFile xfrm path w).2.fs path = w.fs path ∧
    w.fs (path ++ ".tmp") = none ∧
    (xfrmFile xfrm path w).2.fs (path ++ ".tmp") = none ∧
    (xfrmFile xfrm path w).2.fs = w.fs := by
  rw [os.Open_snd] at hcreate
  rcases xfrmFile_cases xfrm path w with ⟨e, he, _⟩ | ⟨n, e, _, _, he, _⟩ |
    ⟨n, hn, ho, hfree, ⟨_, h⟩ | ⟨h1, h0, _⟩ | ⟨h1, h0, _⟩⟩
  · rw [he] at hopen; cases hopen
  · rw [he] at hcreate; cases hcreate
  · rw [ho] at hopen
    cases hopen
    have hfs : (xfrmFile xfrm path w).2.fs = w.fs := by
      rw [h]
      exact xfrmFile.discard_fs _ hfree (fun q hq => by simp [hq, xfrmFile.staged_fs])
    refine ⟨by rw [h], by rw [hfs], hfree, by rw [hfs, hfree], hfs⟩
  · rw [ho] at hopen
    cases hopen
    rcases hx with hx | hx
    · exact absurd h1 hx
    · exact absurd hx h0
  · rw [ho] at hopen
    cases hopen
    rcases hx with hx | hx
    · exact absurd h1 hx
    · exact absurd hx h0

theorem xfrmFile_discard_untouched_witness :
    (Sample.failing (File.reader ⟨"/d/a.go", .file [0, 1, 3]⟩)).err ≠ none ∧
    (xfrmFile Sample.failing "/d/a.go" Sample.world).1 = ([], some (.other "bad marker")) ∧
    (xfrmFile Sample.failing "/d/a.go" Sample.world).2.fs "/d/a.go" = some (.file [0, 1, 3]) ∧
    (xfrmFile Sample.failing "/d/a.go" Sample.world).2.fs "/d/a.go.tmp" = none :=
  have h := xfrmFile_discard_untouched Sample.failing "/d/a.go" Sample.world
    ⟨"/d/a.go", .file [0, 1, 3]⟩ ⟨"/d/a.go.tmp", .file []⟩ rfl rfl
    (Or.inl (by decide))
  ⟨by decide, h.1, h.2.1, h.2.2.2.1⟩


/-- C2: whatever way `xfrmFile` takes, the source afterwards holds either what it held or
all the bytes the transform wrote. When a non-empty marker list comes back without an
error, the source holds the transform's output, the list is the transform's list, no
temporary file remains and no other name changed; in every other case the whole name
space, the source included, is as it was. -/
theorem xfrmFile_atomic (xfrm : xfrmFunc) (path : String) (w : World) :
    ((xfrmFile xfrm path w).2.fs path = w.fs path ∨
      ∃ n, w.fs path = some n ∧ (xfrmFile xfrm path w).2.fs path =
        some (.file (xfrm (File.reader ⟨path, n⟩)).written)) ∧
    (((xfrmFile xfrm path w).1.1 ≠ [] ∧ (xfrmFile xfrm path w).1.2 = none) →
      ∃ n, w.fs path = some n ∧ (os.Open path w).1 = .ok ⟨path, n⟩ ∧
        (xfrmFile xfrm path w).2.fs path =
          some (.file (xfrm (File.reader ⟨path, n⟩)).written) ∧
        (xfrmFile xfrm path w).1.1 = (xfrm (File.reader ⟨path, n⟩)).fps ∧
        (xfrmFile xfrm path w).2.fs (path ++ ".tmp") = none ∧
        ∀ q, q ≠ path → q ≠ path ++ ".tmp" → (xfrmFile xfrm path w).2.fs q = w.fs q) ∧
    (¬ ((xfrmFile xfrm path w).1.1 ≠ [] ∧ (xfrmFile xfrm path w).1.2 = none) →
      (xfrmFile xfrm path w).1.1 = [] ∧ (xfrmFile xfrm path w).2.fs = w.fs) := by
  have hne : path ≠ path ++ ".tmp" := fun h => tmp_ne path h.symm
  rcases xfrmFile_cases xfrm path w with ⟨e, _, h⟩ | ⟨n, e, _, _, _, _, h⟩ |
    ⟨n, hn, ho, hfree, ⟨_, h⟩ | ⟨_, _, e, h⟩ | ⟨h1, h0, _, h⟩⟩
  · rw [h]; simp
  · rw [h]; simp
  · have hfs : (xfrmFile xfrm path w).2.fs = w.fs := by
      rw [h]
      exact xfrmFile.discard_fs _ hfree (fun q hq => by simp [hq, xfrmFile.staged_fs])
    have hnil : (xfrmFile xfrm path w).1.1 = [] := by rw [h]
    exact ⟨Or.inl (by rw [hfs]), fun hc => absurd hnil hc.1, fun _ => ⟨hnil, hfs⟩⟩
  · have hfs : (xfrmFile xfrm path w).2.fs = w.fs := by
      rw [h]
      exact xfrmFile.discard_fs _ hfree (fun q hq => by simp [hq, xfrmFile.staged_fs])
    have hnil : (xfrmFile xfrm path w).1.1 = [] := by rw [h]
    exact ⟨Or.inl (by rw [hfs]), fun hc => absurd hnil hc.1, fun _ => ⟨hnil, hfs⟩⟩
  · rw [h]
    refine ⟨Or.inr ⟨n, hn, by simp⟩, fun _ => ⟨n, hn, ho, by simp, rfl, ?_, ?_⟩, ?_⟩
    · simp [tmp_ne path]
    · intro q hq1 hq2
      simp [hq1, hq2, xfrmFile.staged_fs]
    · intro hc
      exact absurd ⟨h0, rfl⟩ hc

/-- C3: when a file already exists at the temporary name, `xfrmFile` returns an error,
which is the already-exists error of the exclusive create whenever the source itself
opens; the transform plays no part in the outcome and is not run, nothing is written,
renamed or removed, and the name space, the earlier temporary file included, is as it
was. -/
theorem xfrmFile_tmp_exists (xfrm : xfrmFunc) (path : String) (w : World) (n : Node)
    (htmp : w.fs (path ++ ".tmp") = some n) :
    (∃ e, (xfrmFile xfrm path w).1 = ([], some e)) ∧
    ((∃ src, (os.Open path w).1 = .ok src) →
      (xfrmFile xfrm path w).1 = ([], some (.pathError "open" (path ++ ".tmp") .EEXIST))) ∧
    (∀ other : xfrmFunc, xfrmFile other path w = xfrmFile xfrm path w) ∧
    (∃ calls, (xfrmFile xfrm path w).2.trace = w.trace ++ calls ∧
      ∀ c ∈ calls, ∃ name flag, c = .openFile name flag) ∧
    (xfrmFile xfrm path w).2.fs = w.fs ∧
    (xfrmFile xfrm path w).2.fs (path ++ ".tmp") = some n := by
  have hex : w.fs (path ++ ".tmp") ≠ none := by rw [htmp]; simp
  have key : ∀ x : xfrmFunc,
      (∃ e, (os.Open path w).1 = .error e ∧
        xfrmFile x path w = (([], some e), w.log (.openFile path os.O_RDONLY))) ∨
      (∃ m, (os.Open path w).1 = .ok ⟨path, m⟩ ∧
        xfrmFile x path w = (([], some (.pathError "open" (path ++ ".tmp") .EEXIST)),
          (w.log (.openFile path os.O_RDONLY)).log
            (.openFile (path ++ ".tmp") os.O_WRONLY_CREATE_EXCL))) := by
    intro x
    rcases xfrmFile_cases x path w with ⟨e, he, h⟩ | ⟨m, e, _, ho, _, hee, h⟩ |
      ⟨m, _, _, hfree, _⟩
    · exact Or.inl ⟨e, he, h⟩
    · rw [hee hex] at h
      exact Or.inr ⟨m, ho, h⟩
    · rw [hfree] at htmp; cases htmp
  rcases key xfrm with ⟨e, he, h⟩ | ⟨m, ho, h⟩
  · refine ⟨⟨e, by rw [h]⟩, ?_, ?_, ⟨[.openFile path os.O_RDONLY], by rw [h]; rfl, ?_⟩,
      by rw [h]; rfl, by rw [h]; exact htmp⟩
    · rintro ⟨src, hs⟩
      rw [he] at hs; cases hs
    · intro other
      rcases key other with ⟨e2, he2, h2⟩ | ⟨m2, ho2, _⟩
      · rw [he] at he2; cases he2
        rw [h, h2]
      · rw [he] at ho2; cases ho2
    · intro c hc
      simp only [List.mem_singleton] at hc
      exact ⟨_, _, hc⟩
  · refine ⟨⟨_, by rw [h]⟩, fun _ => by rw [h], ?_,
      ⟨[.openFile path os.O_RDONLY, .openFile (path ++ ".tmp") os.O_WRONLY_CREATE_EXCL],
        by rw [h]; simp, ?_⟩, by rw [h]; rfl, by rw [h]; exact htmp⟩
    · intro other
      rcases key other with ⟨e2, he2, _⟩ | ⟨m2, _, h2⟩
      · rw [ho] at he2; cases he2
      · rw [h, h2]
    · intro c hc
      simp only [List.mem_cons, List.mem_singleton, List.mem_nil_iff, or_false] at hc
      rcases hc with hc | hc
      · exact ⟨_, _, hc⟩
      · exact ⟨_, _, hc⟩

theorem xfrmFile_tmp_exists_witness :
    (Sample.world.put "/d/a.go.tmp" (some (.file [4]))).fs ("/d/a.go" ++ ".tmp") =
      some (.file [4]) ∧
    (xfrmFile Sample.activate "/d/a.go"
      (Sample.world.put "/d/a.go.tmp" (some (.file [4])))).1 =
        ([], some (.pathError "open" "/d/a.go.tmp" .EEXIST)) ∧
    (xfrmFile Sample.activate "/d/a.go"
      (Sample.world.put "/d/a.go.tmp" (some (.file [4])))).2.fs "/d/a.go.tmp" =
        some (.file [4]) :=
  have h := xfrmFile_tmp_exists Sample.activate "/d/a.go"
    (Sample.world.put "/d/a.go.tmp" (some (.file [4]))) (.file [4]) (by decide)
  ⟨by decide, h.2.1 ⟨⟨"/d/a.go", .file [0, 1, 3]⟩, rfl⟩, h.2.2.2.2.2⟩


/-! ## Discovery -/

theorem World.agree_refl (w : World) : w.agree w := ⟨rfl, rfl, rfl, rfl⟩

theorem World.agree_log {w v : World} (h : w.agree v) (e : Event) : w.agree (v.log e) := h

theorem World.agree_log_left {w v : World} (h : w.agree v) (e : Event) : (w.log e).agree v := h

theorem World.agree_trans {u v w : World} (h1 : u.agree v) (h2 : v.agree w) : u.agree w :=
  ⟨h1.1.trans h2.1, h1.2.1.trans h2.2.1, h1.2.2.1.trans h2.2.2.1, h1.2.2.2.trans h2.2.2.2⟩

theorem World.agree_symm {u v : World} (h : u.agree v) : v.agree u :=
  ⟨h.1.symm, h.2.1.symm, h.2.2.1.symm, h.2.2.2.symm⟩

/-- What `filepath.Abs` returns depends on the working directory only. -/
theorem filepath.Abs_fst (p : String) (w : World) :
    (filepath.Abs p w).1 =
      if filepath.IsAbs p then .ok (filepath.Clean p)
      else match w.getwd with
        | .error err => .error err
        | .ok wd => .ok (filepath.Join [wd, p]) := by
  unfold filepath.Abs os.Getwd
  by_cases h : filepath.IsAbs p = true
  · simp [h]
  · simp only [h]
    cases w.getwd <;> rfl

theorem filepath.Abs_agree (p : String) (w : World) : w.agree (filepath.Abs p w).2 := by
  unfold filepath.Abs os.Getwd
  by_cases h : filepath.IsAbs p = true
  · simp only [h, if_true]; exact w.agree_refl
  · simp only [h]
    cases w.getwd <;> exact w.agree_refl

theorem filepath.Abs_congr (p : String) {w v : World} (h : w.agree v) :
    (filepath.Abs p v).1 = (filepath.Abs p w).1 := by
  rw [filepath.Abs_fst, filepath.Abs_fst, h.2.2.2]

/-- The loop of `dir2files` keeps the names with the extension, in order, each joined to
the directory. -/
theorem dir2files.loop_eq (dir ext : String) (names ret : List String) :
    dir2files.loop dir ext names ret =
      ret ++ (names.filter (fun f => path.Ext f = ext)).map (fun f => path.Join [dir, f]) := by
  induction names generalizing ret with
  | nil => simp [dir2files.loop]
  | cons f names ih =>
    by_cases h : path.Ext f = ext
    · simp [dir2files.loop, h, ih]
    · simp [dir2files.loop, h, ih]

/-- What `dir2files` returns, from the absolute path of the directory and what the name
space holds there. -/
theorem dir2files_fst (dir ext : String) (w : World) :
    (dir2files dir ext w).1 =
      match (filepath.Abs dir w).1 with
      | .error err => .error err
      | .ok d =>
        match w.fs d with
        | none => .error (.pathError "open" d .ENOENT)
        | some n =>
          match w.openErr d os.O_RDONLY with
          | some e => .error (.pathError "open" d e)
          | none =>
            match n with
            | .dir names => .ok ((names.filter (fun f => path.Ext f = ext)).map
                (fun f => path.Join [d, f]))
            | .file _ => .error (.pathError "readdirent" d .ENOTDIR) := by
  have hag := filepath.Abs_agree dir w
  unfold dir2files
  cases ha : filepath.Abs dir w with
  | mk r w1 =>
    rw [ha] at hag
    cases r with
    | error err => rfl
    | ok d =>
      simp only
      unfold os.Open os.OpenFile
      rw [← hag.1, ← hag.2.1]
      cases hn : w.fs d with
      | none => simp [os.O_RDONLY]
      | some n =>
        cases he : w.openErr d os.O_RDONLY with
        | some e => simp [he]; simp [os.O_RDONLY]
        | none =>
          simp only [he]
          cases n with
          | dir names => simp [os.O_RDONLY, File.Readdirnames, dir2files.loop_eq]
          | file c => simp [os.O_RDONLY, File.Readdirnames]

theorem dir2files_agree (dir ext : String) (w : World) : w.agree (dir2files dir ext w).2 := by
  have hag := filepath.Abs_agree dir w
  unfold dir2files
  cases ha : filepath.Abs dir w with
  | mk r w1 =>
    rw [ha] at hag
    cases r with
    | error err => exact hag
    | ok d =>
      simp only
      rcases os.Open_cases d w1 with ⟨e, h⟩ | ⟨n, _, h⟩
      · rw [h]; exact hag
      · rw [h]
        simp only [File.Readdirnames]
        cases n <;> exact hag

theorem dir2files_congr (dir ext : String) {w v : World} (h : w.agree v) :
    (dir2files dir ext v).1 = (dir2files dir ext w).1 := by
  rw [dir2files_fst, dir2files_fst, filepath.Abs_congr dir h, h.1, h.2.1]

theorem Spec.contribution_congr (p : String) {w v : World} (h : w.agree v) :
    Spec.contribution p v = Spec.contribution p w := by
  unfold Spec.contribution
  rw [← h.1, dir2files_congr p ".go" h, filepath.Abs_congr p h]

theorem Spec.paths2files_congr (paths : List String) {w v : World} (h : w.agree v) :
    Spec.paths2files paths v = Spec.paths2files paths w := by
  induction paths with
  | nil => rfl
  | cons p paths ih => simp only [Spec.paths2files, ih, Spec.contribution_congr p h]

theorem exitWith_fst (line : Output) (code : Nat) {α : Type} (w : World) :
    (exitWith line code w : Except Nat α × World).1 = .error code := rfl

theorem exitWith_agree (line : Output) (code : Nat) {α : Type} (w : World) :
    w.agree (exitWith line code w : Except Nat α × World).2 := w.agree_refl

/-- One round of the loop of `paths2files`: the contribution of the path is appended, or
the run ends with exit code 1. -/
theorem paths2files.loop_cons (p : String) (paths files : List String) (w : World) :
    (∃ v, w.agree v ∧ Spec.contribution p w = .error 1 ∧
      paths2files.loop (p :: paths) files w = (.error 1, v)) ∨
    (∃ v fs, w.agree v ∧ Spec.contribution p w = .ok fs ∧
      paths2files.loop (p :: paths) files w = paths2files.loop paths (files ++ fs) v) := by
  unfold Spec.contribution
  rw [paths2files.loop]
  unfold os.Stat
  cases hn : w.fs p with
  | none =>
    exact Or.inl ⟨(w.log (.stat p)).log (.println (.err (.pathError "stat" p .ENOENT))),
      w.agree_refl, rfl, rfl⟩
  | some n =>
    cases n with
    | dir names =>
      simp only [if_true]
      have hag := dir2files_agree p ".go" (w.log (.stat p))
      have hc : (dir2files p ".go" (w.log (.stat p))).1 = (dir2files p ".go" w).1 :=
        dir2files_congr p ".go" (w.agree_log w.agree_refl _)
      rw [← hc]
      cases hd : dir2files p ".go" (w.log (.stat p)) with
      | mk r v =>
        rw [hd] at hag
        cases r with
        | error err => exact Or.inl ⟨v.log (.println (.err err)), hag, rfl, rfl⟩
        | ok fs => exact Or.inr ⟨v, fs, hag, rfl, rfl⟩
    | file c =>
      simp only [Bool.false_eq_true, if_false]
      by_cases hext : path.Ext (os.basename p) = ".go"
      · simp only [hext, if_true]
        have hag := filepath.Abs_agree p (w.log (.stat p))
        have hc : (filepath.Abs p (w.log (.stat p))).1 = (filepath.Abs p w).1 :=
          filepath.Abs_congr p (w.agree_log w.agree_refl _)
        rw [← hc]
        cases hd : filepath.Abs p (w.log (.stat p)) with
        | mk r v =>
          rw [hd] at hag
          cases r with
          | error err => exact Or.inl ⟨v.log (.println (.err err)), hag, rfl, rfl⟩
          | ok abs => exact Or.inr ⟨v, [abs], hag, rfl, rfl⟩
      · simp only [hext, if_false]
        exact Or.inr ⟨w.log (.stat p), [], w.agree_refl, rfl, by simp⟩

/-- The loop of `paths2files` appends the concatenated contributions of the paths, and
only the trace of the world changes. -/
theorem paths2files.loop_spec (paths files : List String) (w : World) :
    (paths2files.loop paths files w).1 =
      (match Spec.paths2files paths w with
        | .ok rest => .ok (files ++ rest)
        | .error _ => .error 1) ∧
    w.agree (paths2files.loop paths files w).2 := by
  induction paths generalizing files w with
  | nil => exact ⟨by simp [paths2files.loop, Spec.paths2files], w.agree_refl⟩
  | cons p paths ih =>
    rcases paths2files.loop_cons p paths files w with ⟨v, hag, hc, h⟩ | ⟨v, fs, hag, hc, h⟩
    · rw [h]
      refine ⟨?_, hag⟩
      simp [Spec.paths2files, hc]
    · rw [h]
      have := ih (files ++ fs) v
      rw [Spec.paths2files_congr paths hag] at this
      refine ⟨?_, World.agree_trans hag this.2⟩
      rw [this.1]
      simp only [Spec.paths2files, hc]
      cases Spec.paths2files paths w <;> simp

theorem Spec.contribution_error {p : String} {w : World} {c : Nat}
    (h : Spec.contribution p w = .error c) : c = 1 := by
  unfold Spec.contribution at h
  split at h
  · cases h; rfl
  · split at h
    · cases h
    · cases h; rfl
  · split at h
    · split at h
      · cases h
      · cases h; rfl
    · cases h

theorem Spec.paths2files_error {paths : List String} {w : World} {c : Nat}
    (h : Spec.paths2files paths w = .error c) : c = 1 := by
  cases paths with
  | nil => cases h
  | cons p paths =>
    simp only [Spec.paths2files] at h
    split at h
    · cases h
    · cases h; rfl

theorem Spec.paths2files_append {ps qs a b : List String} {w : World}
    (ha : Spec.paths2files ps w = .ok a) (hb : Spec.paths2files qs w = .ok b) :
    Spec.paths2files (ps ++ qs) w = .ok (a ++ b) := by
  induction ps generalizing a with
  | nil => cases ha; simpa using hb
  | cons p ps ih =>
    simp only [Spec.paths2files] at ha
    split at ha
    · rename_i fs rest hc hr
      cases ha
      show Spec.paths2files (p :: (ps ++ qs)) w = _
      simp only [Spec.paths2files, hc, ih hr, List.append_assoc]
    · cases ha

/-- For a list of paths that is not empty, `paths2files` is the specification. -/
theorem paths2files_eq_spec (p : String) (paths : List String) (w : World) :
    (paths2files (p :: paths) w).1 = Spec.paths2files (p :: paths) w := by
  have h := (paths2files.loop_spec (p :: paths) [] w).1
  unfold paths2files
  simp only [List.length_cons, Nat.add_one_ne_zero, if_false]
  rw [h]
  cases hs : Spec.paths2files (p :: paths) w with
  | ok r => simp
  | error c => rw [Spec.paths2files_error hs]

/-- C7: `dir2files` succeeds exactly when the absolute path of the directory is to be
had and names a directory that opens; it then returns, in the order the entries are
read, `Join(Abs(dir), name)` for the entries `name` of that directory whose extension is
`ext`, and nothing else. It reads no other directory: only the directory itself is
opened and listed, what any other name holds does not affect the result, and the name
space is left as it was. -/
theorem dir2files_one_level (dir ext : String) (w : World) :
    (∀ d names, (filepath.Abs dir w).1 = .ok d → w.fs d = some (.dir names) →
      w.openErr d os.O_RDONLY = none →
      (dir2files dir ext w).1 = .ok ((names.filter (fun f => path.Ext f = ext)).map
        (fun f => path.Join [d, f]))) ∧
    (∀ ret, (dir2files dir ext w).1 = .ok ret →
      ∃ d names, (filepath.Abs dir w).1 = .ok d ∧ w.fs d = some (.dir names) ∧
        ret = (names.filter (fun f => path.Ext f = ext)).map (fun f => path.Join [d, f]) ∧
        (∀ r ∈ ret, ∃ f ∈ names, path.Ext f = ext ∧ r = path.Join [d, f]) ∧
        (∀ f ∈ names, path.Ext f = ext → path.Join [d, f] ∈ ret)) ∧
    (∀ v : World, v.getwd = w.getwd →
      (∀ d, (filepath.Abs dir w).1 = .ok d →
        v.fs d = w.fs d ∧ v.openErr d os.O_RDONLY = w.openErr d os.O_RDONLY) →
      (dir2files dir ext v).1 = (dir2files dir ext w).1) ∧
    (∀ c ∈ (dir2files dir ext w).2.trace, c ∈ w.trace ∨ c = .getwd ∨
      ∃ d, (filepath.Abs dir w).1 = .ok d ∧
        (c = .openFile d os.O_RDONLY ∨ c = .readdirnames d)) ∧
    (dir2files dir ext w).2.fs = w.fs := by
  refine ⟨?_, ?_, ?_, ?_, (dir2files_agree dir ext w).1.symm⟩
  · intro d names ha hd he
    rw [dir2files_fst, ha]
    simp only [hd, he]
  · intro ret h
    rw [dir2files_fst] at h
    cases ha : (filepath.Abs dir w).1 with
    | error err => rw [ha] at h; cases h
    | ok d =>
      rw [ha] at h
      simp only at h
      cases hd : w.fs d with
      | none => rw [hd] at h; cases h
      | some n =>
        rw [hd] at h
        simp only at h
        cases he : w.openErr d os.O_RDONLY with
        | some e => rw [he] at h; cases h
        | none =>
          rw [he] at h
          cases n with
          | file c => cases h
          | dir names =>
            simp only [Except.ok.injEq] at h
            refine ⟨d, names, rfl, hd, h.symm, ?_, ?_⟩
            · intro r hr
              rw [← h] at hr
              simp only [List.mem_map, List.mem_filter, decide_eq_true_eq] at hr
              obtain ⟨f, ⟨hf, hext⟩, rfl⟩ := hr
              exact ⟨f, hf, hext, rfl⟩
            · intro f hf hext
              rw [← h]
              simp only [List.mem_map, List.mem_filter, decide_eq_true_eq]
              exact ⟨f, ⟨hf, hext⟩, rfl⟩
  · intro v hwd hsame
    have habs : (filepath.Abs dir v).1 = (filepath.Abs dir w).1 := by
      rw [filepath.Abs_fst, filepath.Abs_fst, hwd]
    rw [dir2files_fst, dir2files_fst, habs]
    cases ha : (filepath.Abs dir w).1 with
    | error err => rfl
    | ok d =>
      obtain ⟨h1, h2⟩ := hsame d ha
      simp only [h1, h2]
  · intro c hc
    have hA : (filepath.Abs dir w).2.trace = w.trace ∨
        (filepath.Abs dir w).2.trace = w.trace ++ [.getwd] := by
      unfold filepath.Abs os.Getwd
      by_cases hab : filepath.IsAbs dir = true
      · simp [hab]
      · simp only [hab]
        cases w.getwd <;> exact Or.inr rfl
    have hbase : ∀ c, c ∈ (filepath.Abs dir w).2.trace → c ∈ w.trace ∨ c = .getwd := by
      intro c hc
      rcases hA with hA | hA
      · rw [hA] at hc; exact Or.inl hc
      · rw [hA] at hc
        simp only [List.mem_append, List.mem_singleton] at hc
        exact hc
    unfold dir2files at hc
    cases ha : filepath.Abs dir w with
    | mk r w1 =>
      rw [ha] at hc hbase
      cases r with
      | error err =>
        rcases hbase c hc with h | h
        · exact Or.inl h
        · exact Or.inr (Or.inl h)
      | ok d =>
        simp only at hc
        have fin : ∀ c, c ∈ w1.trace → c ∈ w.trace ∨ c = .getwd ∨
            ∃ d', (Except.ok d : Except Error String) = .ok d' ∧
              (c = .openFile d' os.O_RDONLY ∨ c = .readdirnames d') := by
          intro c hc
          rcases hbase c hc with h | h
          · exact Or.inl h
          · exact Or.inr (Or.inl h)
        rcases os.Open_cases d w1 with ⟨e, h⟩ | ⟨n, _, h⟩
        · rw [h] at hc
          simp only [World.log_trace, List.mem_append, List.mem_singleton] at hc
          rcases hc with hc | hc
          · exact fin c hc
          · exact Or.inr (Or.inr ⟨d, rfl, Or.inl hc⟩)
        · rw [h] at hc
          simp only [File.Readdirnames] at hc
          cases n <;>
          · simp only [World.log_trace, List.mem_append, List.mem_singleton] at hc
            rcases hc with (hc | hc) | hc
            · exact fin c hc
            · exact Or.inr (Or.inr ⟨d, rfl, Or.inl hc⟩)
            · exact Or.inr (Or.inr ⟨d, rfl, Or.inr hc⟩)

theorem dir2files_one_level_witness :
    (dir2files "/d" ".go" Sample.world).1 = .ok ["/d/a.go", "/d/b.go"] :=
  ((dir2files_one_level "/d" ".go" Sample.world).1 "/d" ["a.go", "b.go", "sub", "c.txt"]
    rfl rfl rfl).trans rfl

/-- C8: for a list of paths that is not empty, `paths2files` returns the contributions of
the paths concatenated in argument order, a scan for a directory, the absolute path for a
file with the source extension, nothing for another file. So the result for `ps ++ qs`
is the result for `ps` followed by the result for `qs`, a path given twice contributes
twice, and no paths at all give what the working directory alone gives; only the trace
of the world changes. -/
theorem paths2files_concat (w : World) :
    (∀ p paths, (paths2files (p :: paths) w).1 = Spec.paths2files (p :: paths) w) ∧
    (∀ ps qs a b, ps ≠ [] → qs ≠ [] → (paths2files ps w).1 = .ok a →
      (paths2files qs w).1 = .ok b → (paths2files (ps ++ qs) w).1 = .ok (a ++ b)) ∧
    (∀ p a, (paths2files [p] w).1 = .ok a → (paths2files [p, p] w).1 = .ok (a ++ a)) ∧
    (∀ wd, w.getwd = .ok wd → (paths2files [] w).1 = (paths2files [wd] w).1) ∧
    (∀ paths, w.agree (paths2files paths w).2) := by
  have hom : ∀ ps qs a b, ps ≠ [] → qs ≠ [] → (paths2files ps w).1 = .ok a →
      (paths2files qs w).1 = .ok b → (paths2files (ps ++ qs) w).1 = .ok (a ++ b) := by
    intro ps qs a b hps hqs ha hb
    obtain ⟨p, ps, rfl⟩ := List.exists_cons_of_ne_nil hps
    obtain ⟨q, qs, rfl⟩ := List.exists_cons_of_ne_nil hqs
    rw [paths2files_eq_spec] at ha hb
    rw [List.cons_append, paths2files_eq_spec, ← List.cons_append]
    exact Spec.paths2files_append ha hb
  refine ⟨fun p paths => paths2files_eq_spec p paths w, hom, ?_, ?_, ?_⟩
  · intro p a ha
    exact hom [p] [p] a a (by simp) (by simp) ha ha
  · intro wd hwd
    have h1 := (paths2files.loop_spec [wd] [] (w.log .getwd)).1
    have h2 := (paths2files.loop_spec [wd] [] w).1
    rw [Spec.paths2files_congr [wd] (w.agree_log w.agree_refl .getwd)] at h1
    unfold paths2files os.Getwd
    simp only [List.length_nil, if_true, hwd, List.length_cons, Nat.add_one_ne_zero, if_false]
    rw [h1, h2]
  · intro paths
    unfold paths2files os.Getwd
    by_cases hl : paths.length = 0
    · simp only [hl, if_true]
      cases hg : w.getwd with
      | error err => exact w.agree_refl
      | ok wd => exact (paths2files.loop_spec [wd] [] (w.log .getwd)).2
    · simp only [hl, if_false]
      exact (paths2files.loop_spec paths [] w).2

theorem paths2files_concat_witness :
    (paths2files ["/d/sub/n.go", "/d/c.txt", "/d", "/d/sub/n.go"] Sample.world).1 =
      .ok ["/d/sub/n.go", "/d/a.go", "/d/b.go", "/d/sub/n.go"] :=
  (paths2files_concat Sample.world).2.1 ["/d/sub/n.go", "/d/c.txt"] ["/d", "/d/sub/n.go"]
    ["/d/sub/n.go"] ["/d/a.go", "/d/b.go", "/d/sub/n.go"] (by decide) (by decide) rfl rfl

/-! ## Facts about the rewrite of one file and the loops of a run -/

/-- The calls of `xfrmFile` are calls of the rewrite of its path. -/
theorem xfrmFile_trace (xfrm : xfrmFunc) (path : String) (w : World) :
    ∃ calls, (xfrmFile xfrm path w).2.trace = w.trace ++ calls ∧
      ∀ c ∈ calls, Event.rewrites path c := by
  rcases xfrmFile_cases xfrm path w with ⟨e, _, h⟩ | ⟨n, e, _, _, _, _, h⟩ |
    ⟨n, _, _, _, ⟨_, h⟩ | ⟨_, _, e, h⟩ | ⟨_, _, _, h⟩⟩
  · exact ⟨[.openFile path os.O_RDONLY], by rw [h]; rfl, by
      intro c hc
      simp only [List.mem_singleton] at hc
      exact Or.inl hc⟩
  · exact ⟨[.openFile path os.O_RDONLY, .openFile (path ++ ".tmp") os.O_WRONLY_CREATE_EXCL],
      by rw [h]; simp, by
      intro c hc
      simp only [List.mem_cons, List.mem_singleton, List.mem_nil_iff, or_false] at hc
      rcases hc with hc | hc
      · exact Or.inl hc
      · exact Or.inr (Or.inl hc)⟩
  · exact ⟨[.openFile path os.O_RDONLY, .openFile (path ++ ".tmp") os.O_WRONLY_CREATE_EXCL,
      .transform path (path ++ ".tmp"),
      .write (path ++ ".tmp") (xfrm (File.reader ⟨path, n⟩)).written,
      .remove (path ++ ".tmp")], by rw [h]; simp [xfrmFile.staged], by
      intro c hc
      simp only [List.mem_cons, List.mem_singleton, List.mem_nil_iff, or_false] at hc
      rcases hc with hc | hc | hc | hc | hc
      · exact Or.inl hc
      · exact Or.inr (Or.inl hc)
      · exact Or.inr (Or.inr (Or.inl hc))
      · exact Or.inr (Or.inr (Or.inr (Or.inl ⟨_, hc⟩)))
      · exact Or.inr (Or.inr (Or.inr (Or.inr (Or.inr hc))))⟩
  · exact ⟨[.openFile path os.O_RDONLY, .openFile (path ++ ".tmp") os.O_WRONLY_CREATE_EXCL,
      .transform path (path ++ ".tmp"),
      .write (path ++ ".tmp") (xfrm (File.reader ⟨path, n⟩)).written,
      .rename (path ++ ".tmp") path,
      .remove (path ++ ".tmp")], by rw [h]; simp [xfrmFile.staged], by
      intro c hc
      simp only [List.mem_cons, List.mem_singleton, List.mem_nil_iff, or_false] at hc
      rcases hc with hc | hc | hc | hc | hc | hc
      · exact Or.inl hc
      · exact Or.inr (Or.inl hc)
      · exact Or.inr (Or.inr (Or.inl hc))
      · exact Or.inr (Or.inr (Or.inr (Or.inl ⟨_, hc⟩)))
      · exact Or.inr (Or.inr (Or.inr (Or.inr (Or.inl hc))))
      · exact Or.inr (Or.inr (Or.inr (Or.inr (Or.inr hc))))⟩
  · exact ⟨[.openFile path os.O_RDONLY, .openFile (path ++ ".tmp") os.O_WRONLY_CREATE_EXCL,
      .transform path (path ++ ".tmp"),
      .write (path ++ ".tmp") (xfrm (File.reader ⟨path, n⟩)).written,
      .rename (path ++ ".tmp") path], by rw [h]; simp [xfrmFile.staged], by
      intro c hc
      simp only [List.mem_cons, List.mem_singleton, List.mem_nil_iff, or_false] at hc
      rcases hc with hc | hc | hc | hc | hc
      · exact Or.inl hc
      · exact Or.inr (Or.inl hc)
      · exact Or.inr (Or.inr (Or.inl hc))
      · exact Or.inr (Or.inr (Or.inr (Or.inl ⟨_, hc⟩)))
      · exact Or.inr (Or.inr (Or.inr (Or.inr (Or.inl hc))))⟩

/-- The rewrite of a file leaves every name but the file and its temporary file alone. -/
theorem xfrmFile_frame (xfrm : xfrmFunc) (path : String) (w : World) (q : String)
    (h1 : q ≠ path) (h2 : q ≠ path ++ ".tmp") : (xfrmFile xfrm path w).2.fs q = w.fs q := by
  rcases xfrmFile_cases xfrm path w with ⟨e, _, h⟩ | ⟨n, e, _, _, _, _, h⟩ |
    ⟨n, _, _, _, ⟨_, h⟩ | ⟨_, _, e, h⟩ | ⟨_, _, _, h⟩⟩ <;>
  · rw [h]
    simp [h1, h2, xfrmFile.staged_fs]

/-- A rewrite that returns an error leaves the whole name space as it was. -/
theorem xfrmFile_error_fs {xfrm : xfrmFunc} {path : String} {w : World} {e : Error}
    (he : (xfrmFile xfrm path w).1.2 = some e) : (xfrmFile xfrm path w).2.fs = w.fs := by
  rcases xfrmFile_cases xfrm path w with ⟨e, _, h⟩ | ⟨n, e, _, _, _, _, h⟩ |
    ⟨n, _, _, hfree, ⟨_, h⟩ | ⟨_, _, e, h⟩ | ⟨_, _, _, h⟩⟩
  · rw [h]; rfl
  · rw [h]; rfl
  · rw [h]
    exact xfrmFile.discard_fs _ hfree (fun q hq => by simp [hq, xfrmFile.staged_fs])
  · rw [h]
    exact xfrmFile.discard_fs _ hfree (fun q hq => by simp [hq, xfrmFile.staged_fs])
  · rw [h] at he; cases he

/-- The marker list of a rewrite that returns no error is the list of the transform, run
on what the file held. -/
theorem xfrmFile_ok_fps {xfrm : xfrmFunc} {path : String} {w v : World}
    {l : List Failpoint} (hok : xfrmFile xfrm path w = ((l, none), v)) :
    ∃ n, w.fs path = some n ∧ l = (xfrm (File.reader ⟨path, n⟩)).fps ∧
      (xfrm (File.reader ⟨path, n⟩)).err = none := by
  rcases xfrmFile_cases xfrm path w with ⟨e, _, h⟩ | ⟨n, e, _, _, _, _, h⟩ |
    ⟨n, hn, _, _, ⟨hx, h⟩ | ⟨_, _, e, h⟩ | ⟨h1, _, _, h⟩⟩
  · rw [h] at hok; cases hok
  · rw [h] at hok; cases hok
  · rw [h] at hok
    simp only [Prod.mk.injEq] at hok
    obtain ⟨⟨hl, herr⟩, _⟩ := hok
    refine ⟨n, hn, ?_, herr⟩
    rcases hx with hx | hx
    · exact absurd herr hx
    · rw [hx, hl]
  · rw [h] at hok; cases hok
  · rw [h] at hok
    simp only [Prod.mk.injEq] at hok
    exact ⟨n, hn, hok.1.1.symm, h1⟩

/-- The rewrite loop over `pre ++ rest` is the loop over `pre`, then over `rest`. -/
theorem main.rewriteLoop_append (xfrm : xfrmFunc) (pre rest : List String)
    (fps : List (List Failpoint)) (w : World) :
    main.rewriteLoop xfrm (pre ++ rest) fps w =
      match main.rewriteLoop xfrm pre fps w with
      | (.error code, v) => (.error code, v)
      | (.ok fps1, v) => main.rewriteLoop xfrm rest fps1 v := by
  induction pre generalizing fps w with
  | nil => rfl
  | cons p pre ih =>
    show main.rewriteLoop xfrm (p :: (pre ++ rest)) fps w = _
    simp only [main.rewriteLoop]
    rcases h : xfrmFile xfrm p w with ⟨⟨l, _ | e⟩, v⟩
    · exact ih _ _
    · rfl

/-- A rewrite loop that runs through collects one marker list for each file, makes only
calls that belong to the rewrites of its files, and leaves every name but those files and
their temporary files alone. -/
theorem main.rewriteLoop_ok {xfrm : xfrmFunc} {files : List String}
    {acc fps : List (List Failpoint)} {w v : World}
    (h : main.rewriteLoop xfrm files acc w = (.ok fps, v)) :
    (∃ got, fps = acc ++ got ∧ got.length = files.length) ∧
    (∃ calls, v.trace = w.trace ++ calls ∧ ∀ c ∈ calls, ∃ f ∈ files, Event.rewrites f c) ∧
    (∀ q, (∀ f ∈ files, q ≠ f ∧ q ≠ f ++ ".tmp") → v.fs q = w.fs q) := by
  induction files generalizing acc w with
  | nil =>
    simp only [main.rewriteLoop, Prod.mk.injEq, Except.ok.injEq] at h
    obtain ⟨rfl, rfl⟩ := h
    exact ⟨⟨[], by simp, rfl⟩, ⟨[], by simp, by simp⟩, fun _ _ => rfl⟩
  | cons p files ih =>
    rw [main.rewriteLoop] at h
    rcases hx : xfrmFile xfrm p w with ⟨⟨l, _ | e⟩, u⟩
    · rw [hx] at h
      simp only at h
      obtain ⟨⟨got, hg, hlen⟩, ⟨calls, hc, hcs⟩, hfr⟩ := ih h
      obtain ⟨calls0, hc0, hcs0⟩ := xfrmFile_trace xfrm p w
      rw [hx] at hc0
      refine ⟨⟨l :: got, by rw [hg]; simp, by simp [hlen]⟩,
        ⟨calls0 ++ calls, by rw [hc, hc0]; simp, ?_⟩, ?_⟩
      · intro c hcm
        rcases List.mem_append.mp hcm with hcm | hcm
        · exact ⟨p, by simp, hcs0 c hcm⟩
        · obtain ⟨f, hf, hr⟩ := hcs c hcm
          exact ⟨f, by simp [hf], hr⟩
      · intro q hq
        rw [hfr q (fun f hf => hq f (by simp [hf]))]
        have := xfrmFile_frame xfrm p w q (hq p (by simp)).1 (hq p (by simp)).2
        rw [hx] at this
        exact this
    · rw [hx] at h
      cases h

theorem main_enable (ToFailpoints ToComments : xfrmFunc) (NewBinding : Renderer)
    (prog : String) (args : List String) (w : World) :
    main ToFailpoints ToComments NewBinding (prog :: "enable" :: args) w =
      main.run ToFailpoints true NewBinding args w := by
  simp [main]

theorem main_disable (ToFailpoints ToComments : xfrmFunc) (NewBinding : Renderer)
    (prog : String) (args : List String) (w : World) :
    main ToFailpoints ToComments NewBinding (prog :: "disable" :: args) w =
      main.run ToComments false NewBinding args w := by
  simp [main]

theorem os.Remove_trace (name : String) (w : World) :
    (os.Remove name w).2.trace = w.trace ++ [.remove name] := by
  unfold os.Remove
  rcases h : w.fs name with _ | ⟨c | (_ | ⟨x, names⟩)⟩ <;> simp

/-- After `os.Remove` the name is free, unless a directory that is not empty holds it. -/
theorem os.Remove_at (name : String) (w : World) :
    (os.Remove name w).2.fs name = none ∨
      ∃ x names, (os.Remove name w).2.fs name = some (.dir (x :: names)) := by
  unfold os.Remove
  rcases h : w.fs name with _ | ⟨c | (_ | ⟨x, names⟩)⟩
  · simp [h]
  · simp
  · simp
  · exact Or.inr ⟨x, names, by simp [h]⟩

/-- A call of `os.Remove` frees a name or leaves it as it was. -/
theorem os.Remove_other (name : String) (w : World) (q : String) :
    (os.Remove name w).2.fs q = w.fs q ∨
      (q = name ∧ (os.Remove name w).2.fs q = none) := by
  unfold os.Remove
  by_cases hq : q = name
  · rcases h : w.fs name with _ | ⟨c | (_ | ⟨x, names⟩)⟩
    · exact Or.inl (by simp)
    · exact Or.inr ⟨hq, by simp [hq]⟩
    · exact Or.inr ⟨hq, by simp [hq]⟩
    · exact Or.inl (by simp)
  · rcases h : w.fs name with _ | ⟨c | (_ | ⟨x, names⟩)⟩ <;> exact Or.inl (by simp [hq])

theorem main.removeLoop_trace (files : List String) (w : World) :
    (main.removeLoop files w).trace =
      w.trace ++ files.map (fun f => Event.remove (companionPath f)) := by
  induction files generalizing w with
  | nil => simp [main.removeLoop]
  | cons f files ih =>
    rw [main.removeLoop, ih]
    have := os.Remove_trace (companionPath f) w
    simp only [companionPath] at this
    rw [this]
    simp [companionPath]

/-- The removal loop frees names or leaves them as they were, and only companion paths
of its files are freed. -/
theorem main.removeLoop_other (files : List String) (w : World) (q : String) :
    (main.removeLoop files w).fs q = w.fs q ∨
      ((∃ f ∈ files, q = companionPath f) ∧ (main.removeLoop files w).fs q = none) := by
  induction files generalizing w with
  | nil => exact Or.inl rfl
  | cons f files ih =>
    rw [main.removeLoop]
    have h1 := os.Remove_other (companionPath f) w q
    simp only [companionPath] at h1
    rcases ih (os.Remove (path.Join [path.Dir f,
        (strings.Split (path.Base f) ".go").headD "" ++ ".fail.go"]) w).2 with h | ⟨⟨g, hg, hq⟩, h⟩
    · rcases h1 with h1 | ⟨hq, h1⟩
      · exact Or.inl (h.trans h1)
      · exact Or.inr ⟨⟨f, by simp, hq⟩, h.trans h1⟩
    · exact Or.inr ⟨⟨g, by simp [hg], hq⟩, h⟩

/-- After the removal loop no companion path of its files holds a regular file: each is
free, or held by a directory that is not empty. -/
theorem main.removeLoop_at (files : List String) (w : World) (f : String) (hf : f ∈ files) :
    (main.removeLoop files w).fs (companionPath f) = none ∨
      ∃ x names, (main.removeLoop files w).fs (companionPath f) = some (.dir (x :: names)) := by
  induction files generalizing w with
  | nil => cases hf
  | cons g files ih =>
    rw [main.removeLoop]
    rcases List.mem_cons.mp hf with rfl | hf
    · have h1 := os.Remove_at (companionPath f) w
      simp only [companionPath] at h1
      rcases main.removeLoop_other files (os.Remove (path.Join [path.Dir f,
          (strings.Split (path.Base f) ".go").headD "" ++ ".fail.go"]) w).2
          (companionPath f) with h | ⟨_, h⟩
      · simp only [companionPath] at h ⊢
        rw [h]
        exact h1
      · exact Or.inl h
    · exact ih _ hf

/-! ## Companion files: facts -/

theorem os.Create_cases (name : String) (w : World) :
    (∃ e, os.Create name w = (.error e, w.log (.openFile name os.O_RDWR_CREATE_TRUNC))) ∨
    os.Create name w = (.ok ⟨name, .file []⟩,
      (w.log (.openFile name os.O_RDWR_CREATE_TRUNC)).put name (some (.file []))) := by
  unfold os.Create os.OpenFile
  cases hn : w.fs name with
  | none =>
    cases he : w.openErr name os.O_RDWR_CREATE_TRUNC with
    | some e =>
      exact Or.inl ⟨.pathError "open" name e, by simp [he]; simp [os.O_RDWR_CREATE_TRUNC]⟩
    | none => exact Or.inr (by simp [he]; simp [os.O_RDWR_CREATE_TRUNC])
  | some n =>
    cases n with
    | dir names =>
      exact Or.inl ⟨.pathError "open" name .EISDIR, by simp [os.O_RDWR_CREATE_TRUNC]⟩
    | file c =>
      cases he : w.openErr name os.O_RDWR_CREATE_TRUNC with
      | some e =>
        exact Or.inl ⟨.pathError "open" name e, by simp [he]; simp [os.O_RDWR_CREATE_TRUNC]⟩
      | none => exact Or.inr (by simp [he]; simp [os.O_RDWR_CREATE_TRUNC])

/-- Without markers `writeBinding` returns at once. -/
theorem writeBinding_nil (NewBinding : Renderer) (file : String) (w : World) :
    writeBinding NewBinding file [] w = (.ok (), w) := rfl

/-- With markers `writeBinding` either cannot create the companion and ends the run, or
creates it and writes the rendered text. -/
theorem writeBinding_cases (NewBinding : Renderer) (file : String) {fps : List Failpoint}
    (hne : fps ≠ []) (w : World) :
    (∃ e, writeBinding NewBinding file fps w = (.error 1,
      (w.log (.openFile (companionPath file) os.O_RDWR_CREATE_TRUNC)).log
        (.println (.err e)))) ∨
    writeBinding NewBinding file fps w = (.ok (),
      (((w.log (.openFile (companionPath file) os.O_RDWR_CREATE_TRUNC)).put
          (companionPath file) (some (.file []))).log
        (.write (companionPath file) (NewBinding (path.Base (path.Dir file)) fps))).put
        (companionPath file)
        (some (.file (NewBinding (path.Base (path.Dir file)) fps)))) := by
  have hlen : ¬ fps.length = 0 := by
    intro h
    exact hne (List.length_eq_zero.mp h)
  unfold writeBinding
  simp only [hlen, if_false]
  rcases os.Create_cases (companionPath file) w with ⟨e, h⟩ | h
  · simp only [companionPath] at h
    rw [h]
    exact Or.inl ⟨e, rfl⟩
  · simp only [companionPath] at h
    rw [h]
    exact Or.inr rfl

/-- An enable loop that runs through makes the calls `main.bindCalls` lists, leaves alone
every name that is not the companion path of a file with markers, and leaves a regular
file at every companion path of a file with markers. -/
theorem main.bindLoop_ok {NewBinding : Renderer} {files : List String}
    {fps : List (List Failpoint)} {w v : World}
    (h : main.bindLoop NewBinding files fps w = (.ok (), v)) :
    v.trace = w.trace ++ main.bindCalls NewBinding files fps ∧
    (∀ q, (∀ e ∈ files.zip fps, e.2 ≠ [] → q ≠ companionPath e.1) → v.fs q = w.fs q) ∧
    (∀ e ∈ files.zip fps, e.2 ≠ [] → ∃ content, v.fs (companionPath e.1) =
      some (.file content)) := by
  induction files generalizing fps w with
  | nil =>
    simp only [main.bindLoop, Prod.mk.injEq, true_and] at h
    subst h
    simp [main.bindCalls]
  | cons f files ih =>
    cases fps with
    | nil =>
      simp only [main.bindLoop, Prod.mk.injEq, true_and] at h
      subst h
      simp [main.bindCalls]
    | cons m fps =>
      rw [main.bindLoop] at h
      by_cases hm : m = []
      · subst hm
        rw [writeBinding_nil] at h
        simp only at h
        obtain ⟨h1, h2, h3⟩ := ih h
        refine ⟨by rw [h1]; simp [main.bindCalls], ?_, ?_⟩
        · intro q hq
          exact h2 q (fun e he hne => hq e (by simp [he]) hne)
        · intro e he hne
          simp only [List.zip_cons_cons, List.mem_cons] at he
          rcases he with rfl | he
          · exact absurd rfl hne
          · exact h3 e he hne
      · rcases writeBinding_cases NewBinding f hm w with ⟨e, hw⟩ | hw
        · rw [hw] at h
          cases h
        · rw [hw] at h
          simp only at h
          obtain ⟨h1, h2, h3⟩ := ih h
          refine ⟨by rw [h1]; simp [main.bindCalls, hm], ?_, ?_⟩
          · intro q hq
            have hqf : q ≠ companionPath f := hq (f, m) (by simp) hm
            rw [h2 q (fun e he hne => hq e (by simp [he]) hne)]
            simp [hqf]
          · intro e he hne
            simp only [List.zip_cons_cons, List.mem_cons] at he
            rcases he with rfl | he
            · by_cases hlater : ∃ e ∈ files.zip fps, e.2 ≠ [] ∧
                  companionPath e.1 = companionPath f
              · obtain ⟨e, he, hne2, hc⟩ := hlater
                rw [← hc]
                exact h3 e he hne2
              · refine ⟨NewBinding (path.Base (path.Dir f)) m, ?_⟩
                rw [h2 (companionPath f) (fun e he hne2 hc => hlater ⟨e, he, hne2, hc.symm⟩)]
                simp
            · exact h3 e he hne

/-- The calls of the enable branch are, for the files with markers and for no others, the
creation of the companion and the write of the rendered text. -/
theorem main.bindCalls_mem (NewBinding : Renderer) (files : List String)
    (fps : List (List Failpoint)) :
    (∀ c ∈ main.bindCalls NewBinding files fps, ∃ e ∈ files.zip fps, e.2 ≠ [] ∧
      (c = .openFile (companionPath e.1) os.O_RDWR_CREATE_TRUNC ∨
        c = .write (companionPath e.1) (NewBinding (path.Base (path.Dir e.1)) e.2))) ∧
    (∀ e ∈ files.zip fps, e.2 ≠ [] →
      Event.openFile (companionPath e.1) os.O_RDWR_CREATE_TRUNC ∈
        main.bindCalls NewBinding files fps ∧
      Event.write (companionPath e.1) (NewBinding (path.Base (path.Dir e.1)) e.2) ∈
        main.bindCalls NewBinding files fps) := by
  induction files generalizing fps with
  | nil => simp [main.bindCalls]
  | cons f files ih =>
    cases fps with
    | nil => simp [main.bindCalls]
    | cons m fps =>
      obtain ⟨ih1, ih2⟩ := ih fps
      constructor
      · intro c hc
        rw [main.bindCalls] at hc
        rcases List.mem_append.mp hc with hc | hc
        · by_cases hm : m = []
          · simp [hm] at hc
          · simp only [hm, if_false, List.mem_cons, List.mem_singleton, List.mem_nil_iff,
              or_false] at hc
            exact ⟨(f, m), by simp, hm, hc⟩
        · obtain ⟨e, he, hne, hce⟩ := ih1 c hc
          exact ⟨e, by simp [he], hne, hce⟩
      · intro e he hne
        simp only [List.zip_cons_cons, List.mem_cons] at he
        rw [main.bindCalls]
        rcases he with rfl | he
        · simp [hne]
        · obtain ⟨h1, h2⟩ := ih2 e he hne
          exact ⟨List.mem_append_right _ h1, List.mem_append_right _ h2⟩

/-! ## Facts about paths -/

theorem path.Clean.loop_copy (rooted : Bool) (e out : List Char) (dotdot : Nat)
    (he : '/' ∉ e) : path.Clean.loop rooted e true out dotdot = e.reverse ++ out := by
  induction e generalizing out with
  | nil => simp [path.Clean.loop]
  | cons c cs ih =>
    have hc : c ≠ '/' := fun h => he (by simp [h])
    have hcs : '/' ∉ cs := fun h => he (by simp [h])
    simp [path.Clean.loop, hc, ih _ hcs]

theorem path.Clean.loop_element (rooted : Bool) (e out : List Char) (dotdot : Nat)
    (h0 : e ≠ []) (hs : '/' ∉ e) (h1 : e ≠ ['.']) (h2 : e ≠ ['.', '.']) :
    path.Clean.loop rooted e false out dotdot = e.reverse ++
      (if (rooted ∧ out.length ≠ 1) ∨ (!rooted ∧ out.length ≠ 0) then '/' :: out else out) := by
  cases e with
  | nil => exact absurd rfl h0
  | cons c e =>
    have hc : c ≠ '/' := fun h => hs (by simp [h])
    cases e with
    | nil =>
      have hc1 : c ≠ '.' := fun h => h1 (by simp [h])
      simp [path.Clean.loop, hc, hc1]
    | cons d cs =>
      have hd : d ≠ '/' := fun h => hs (by simp [h])
      have hcs1 : '/' ∉ cs := fun h => hs (List.mem_cons_of_mem _ (List.mem_cons_of_mem _ h))
      have hh : ¬ (c = '.' ∧ d = '.' ∧ (cs = [] ∨ cs.head? = some '/')) := by
        rintro ⟨rfl, rfl, h | h⟩
        · exact h2 (by simp [h])
        · cases cs with
          | nil => simp at h
          | cons x xs => simp at h; exact hcs1 (by simp [h])
      simp only [path.Clean.loop, hc, if_false, hd, reduceCtorEq, or_false,
        and_false, hh, List.head?_cons, Option.some.injEq, path.Clean.loop_copy _ _ _ _ hcs1]
      simp

theorem getLast?_cons_of_some {c a : Char} {out : List Char} (h : out.getLast? = some a) :
    (c :: out).getLast? = some a := by
  cases out with
  | nil => simp at h
  | cons x xs => rw [List.getLast?_cons_cons]; exact h

theorem path.Clean.backtrack_last (dotdot : Nat) (hdd : 1 ≤ dotdot) (out : List Char) (x : Char)
    (hlen : (x :: out).length > dotdot) (hlast : (x :: out).getLast? = some '/') :
    (path.Clean.backtrack dotdot out x).getLast? = some '/' := by
  induction out generalizing x with
  | nil => simp at hlen; omega
  | cons y out ih =>
    rw [List.getLast?_cons_cons] at hlast
    unfold path.Clean.backtrack
    split
    · rename_i h
      exact ih y h.1 hlast
    · exact hlast

theorem path.Clean.loop_slash (rooted : Bool) (cs : List Char) (inElem : Bool) (out : List Char)
    (dotdot : Nat) :
    path.Clean.loop rooted ('/' :: cs) inElem out dotdot =
      path.Clean.loop rooted cs false out dotdot := by
  cases inElem <;> cases cs <;> simp [path.Clean.loop]

theorem path.Clean.loop_dot (rooted : Bool) (cs : List Char) (out : List Char) (dotdot : Nat)
    (h : cs = [] ∨ cs.head? = some '/') :
    path.Clean.loop rooted ('.' :: cs) false out dotdot =
      path.Clean.loop rooted cs false out dotdot := by
  cases cs with
  | nil => simp [path.Clean.loop]
  | cons d cs =>
    have hd : d = '/' := by simpa using h
    simp [path.Clean.loop, hd]

theorem path.Clean.loop_char (rooted : Bool) (c : Char) (cs : List Char) (out : List Char)
    (dotdot : Nat) (hc : c ≠ '/') :
    path.Clean.loop rooted (c :: cs) true out dotdot =
      path.Clean.loop rooted cs true (c :: out) dotdot := by
  cases cs <;> simp [path.Clean.loop, hc]

theorem path.Clean.loop_dotdot_back (rooted : Bool) (cs : List Char) (x : Char)
    (out : List Char) (dotdot : Nat) (h : cs = [] ∨ cs.head? = some '/')
    (hlen : (x :: out).length > dotdot) :
    path.Clean.loop rooted ('.' :: '.' :: cs) false (x :: out) dotdot =
      path.Clean.loop rooted cs false (path.Clean.backtrack dotdot out x) dotdot := by
  have hlen1 : ¬ (out.length + 1 ≤ dotdot) := by simp at hlen; omega
  simp [path.Clean.loop, h, hlen1]

theorem path.Clean.loop_dotdot_up (cs out : List Char) (dotdot : Nat)
    (h : cs = [] ∨ cs.head? = some '/') (hlen : ¬ out.length > dotdot) :
    path.Clean.loop false ('.' :: '.' :: cs) false out dotdot =
      path.Clean.loop false cs false ('.' :: '.' :: (if out.length > 0 then '/' :: out else out))
        ((if out.length > 0 then '/' :: out else out).length + 2) := by
  simp [path.Clean.loop, h, hlen]

theorem path.Clean.loop_dotdot_root (cs out : List Char) (dotdot : Nat)
    (h : cs = [] ∨ cs.head? = some '/') (hlen : ¬ out.length > dotdot) :
    path.Clean.loop true ('.' :: '.' :: cs) false out dotdot =
      path.Clean.loop true cs false out dotdot := by
  simp [path.Clean.loop, h, hlen]

theorem path.Clean.loop_start (rooted : Bool) (c d : Char) (cs out : List Char) (dotdot : Nat)
    (hc : c ≠ '/') (hdot : ¬ (c = '.' ∧ d = '/'))
    (hdd : ¬ (c = '.' ∧ d = '.' ∧ (cs = [] ∨ cs.head? = some '/'))) :
    path.Clean.loop rooted (c :: d :: cs) false out dotdot =
      path.Clean.loop rooted (d :: cs) true
        (c :: (if (rooted ∧ out.length ≠ 1) ∨ (!rooted ∧ out.length ≠ 0) then '/' :: out
          else out)) dotdot := by
  simp only [path.Clean.loop, hc, if_false, List.head?_cons, Option.some.injEq, reduceCtorEq,
    false_or, hdot, hdd]

theorem path.Clean.loop_prefix (rooted : Bool) (s : List Char) (n : Nat) :
    ∀ (pre : List Char), pre.length ≤ n → ∀ (inElem : Bool) (out : List Char) (dotdot : Nat),
      (rooted = true → dotdot = 1 ∧ out.getLast? = some '/') →
      ∃ out1 dotdot1, (rooted = true → dotdot1 = 1 ∧ out1.getLast? = some '/') ∧
        path.Clean.loop rooted (pre ++ '/' :: s) inElem out dotdot =
          path.Clean.loop rooted s false out1 dotdot1 := by
  induction n with
  | zero =>
    intro pre hpre inElem out dotdot hinv
    have : pre = [] := List.length_eq_zero.mp (Nat.le_zero.mp hpre)
    subst this
    exact ⟨out, dotdot, hinv, path.Clean.loop_slash ..⟩
  | succ n ih =>
    intro pre hpre inElem out dotdot hinv
    cases pre with
    | nil => exact ⟨out, dotdot, hinv, path.Clean.loop_slash ..⟩
    | cons c rest =>
      have hrest : rest.length ≤ n := by simpa using hpre
      have hout1 : rooted = true → dotdot = 1 ∧
          (c :: (if (rooted ∧ out.length ≠ 1) ∨ (!rooted ∧ out.length ≠ 0) then '/' :: out
            else out)).getLast? = some '/' := by
        intro hr
        refine ⟨(hinv hr).1, getLast?_cons_of_some ?_⟩
        split
        · exact getLast?_cons_of_some (hinv hr).2
        · exact (hinv hr).2
      by_cases hc : c = '/'
      · obtain ⟨o, d, hi, he⟩ := ih rest hrest false out dotdot hinv
        refine ⟨o, d, hi, ?_⟩
        rw [← he, hc]
        exact path.Clean.loop_slash ..
      cases inElem with
      | true =>
        obtain ⟨o, d, hi, he⟩ := ih rest hrest true (c :: out) dotdot
          (fun hr => ⟨(hinv hr).1, getLast?_cons_of_some (hinv hr).2⟩)
        refine ⟨o, d, hi, ?_⟩
        rw [← he]
        exact path.Clean.loop_char _ _ _ _ _ hc
      | false =>
        by_cases hdot : c = '.' ∧ (rest ++ '/' :: s = [] ∨ (rest ++ '/' :: s).head? = some '/')
        · obtain ⟨o, d, hi, he⟩ := ih rest hrest false out dotdot hinv
          refine ⟨o, d, hi, ?_⟩
          rw [← he, hdot.1]
          exact path.Clean.loop_dot _ _ _ _ hdot.2
        · cases rest with
          | nil =>
            obtain ⟨o, d, hi, he⟩ := ih [] (Nat.zero_le _) true _ dotdot hout1
            refine ⟨o, d, hi, ?_⟩
            rw [← he]
            have hc1 : c ≠ '.' := fun h => hdot ⟨h, Or.inr rfl⟩
            exact path.Clean.loop_start _ _ _ _ _ _ hc (fun h => hc1 h.1) (fun h => hc1 h.1)
          | cons d rest =>
            have hrest1 : rest.length ≤ n := by simp at hrest; omega
            have hdot1 : ¬ (c = '.' ∧ d = '/') := by simpa using hdot
            by_cases hdd : c = '.' ∧ d = '.' ∧
                (rest ++ '/' :: s = [] ∨ (rest ++ '/' :: s).head? = some '/')
            · obtain ⟨rfl, rfl, hnext⟩ := hdd
              by_cases hlen : out.length > dotdot
              · cases out with
                | nil => simp at hlen
                | cons x out =>
                  obtain ⟨o, dd, hi, he⟩ := ih rest hrest1 false
                    (path.Clean.backtrack dotdot out x) dotdot
                    (fun hr => ⟨(hinv hr).1, path.Clean.backtrack_last dotdot
                      (by rw [(hinv hr).1]) out x hlen (hinv hr).2⟩)
                  refine ⟨o, dd, hi, ?_⟩
                  rw [← he]
                  exact path.Clean.loop_dotdot_back _ _ _ _ _ hnext hlen
              · cases rooted with
                | false =>
                  obtain ⟨o, dd, hi, he⟩ := ih rest hrest1 false
                    ('.' :: '.' :: (if out.length > 0 then '/' :: out else out))
                    ((if out.length > 0 then '/' :: out else out).length + 2)
                    (fun h => by simp at h)
                  refine ⟨o, dd, hi, ?_⟩
                  rw [← he]
                  exact path.Clean.loop_dotdot_up _ _ _ hnext hlen
                | true =>
                  obtain ⟨o, dd, hi, he⟩ := ih rest hrest1 false out dotdot hinv
                  refine ⟨o, dd, hi, ?_⟩
                  rw [← he]
                  exact path.Clean.loop_dotdot_root _ _ _ hnext hlen
            · obtain ⟨o, dd, hi, he⟩ := ih (d :: rest) hrest true _ dotdot hout1
              refine ⟨o, dd, hi, ?_⟩
              rw [← he]
              exact path.Clean.loop_start _ _ _ _ _ _ hc hdot1 hdd

theorem path.Clean.sep_head (rooted : Bool) (out : List Char)
    (hinv : rooted = true → out.getLast? = some '/') :
    (if (rooted ∧ out.length ≠ 1) ∨ (!rooted ∧ out.length ≠ 0) then '/' :: out else out) = [] ∨
    (if (rooted ∧ out.length ≠ 1) ∨ (!rooted ∧ out.length ≠ 0) then '/' :: out
      else out).head? = some '/' := by
  split
  · exact Or.inr rfl
  · rename_i h
    cases rooted with
    | false =>
      left
      simpa using h
    | true =>
      right
      have h1 : out.length = 1 := by simpa using h
      match out, h1 with
      | [a], _ => simpa using hinv rfl

theorem path.Clean_last (pre e : List Char) (h0 : e ≠ []) (hs : '/' ∉ e) (h1 : e ≠ ['.'])
    (h2 : e ≠ ['.', '.']) :
    ∃ out, (out = [] ∨ out.head? = some '/') ∧
      path.Clean ⟨pre ++ '/' :: e⟩ = ⟨(e.reverse ++ out).reverse⟩ := by
  have hne : (⟨pre ++ '/' :: e⟩ : String) ≠ "" := by
    intro h
    have := congrArg String.data h
    simp at this
  have hfin : ∀ (rooted : Bool) (l out : List Char) (dotdot : Nat),
      (rooted = true → dotdot = 1 ∧ out.getLast? = some '/') →
      (l = e ∨ ∃ p, l = p ++ '/' :: e) →
      ∃ out2, (out2 = [] ∨ out2.head? = some '/') ∧
        path.Clean.loop rooted l false out dotdot = e.reverse ++ out2 := by
    intro rooted l out dotdot hinv hl
    rcases hl with rfl | ⟨p, rfl⟩
    · exact ⟨_, path.Clean.sep_head rooted out (fun h => (hinv h).2),
        path.Clean.loop_element rooted l out dotdot h0 hs h1 h2⟩
    · obtain ⟨o, d, hi, he⟩ := path.Clean.loop_prefix rooted e p.length p (Nat.le_refl _) false
        out dotdot hinv
      exact ⟨_, path.Clean.sep_head rooted o (fun h => (hi h).2),
        he.trans (path.Clean.loop_element rooted e o d h0 hs h1 h2)⟩
  unfold path.Clean
  rw [if_neg hne]
  simp only
  by_cases hr : (pre ++ '/' :: e).head? = some '/'
  · have hl : (pre ++ '/' :: e).tail = e ∨ ∃ p, (pre ++ '/' :: e).tail = p ++ '/' :: e := by
      cases pre with
      | nil => exact Or.inl rfl
      | cons c p => exact Or.inr ⟨p, rfl⟩
    obtain ⟨out2, ho, he⟩ := hfin true _ ['/'] 1 (fun _ => ⟨rfl, rfl⟩) hl
    refine ⟨out2, ho, ?_⟩
    simp only [hr, decide_True, if_true, he]
    have : (e.reverse ++ out2).length ≠ 0 := by
      cases e with
      | nil => exact absurd rfl h0
      | cons c cs => simp
    rw [if_neg this]
  · have hl : (pre ++ '/' :: e) = e ∨ ∃ p, (pre ++ '/' :: e) = p ++ '/' :: e := Or.inr ⟨pre, rfl⟩
    obtain ⟨out2, ho, he⟩ := hfin false _ [] 0 (fun h => by simp at h) hl
    refine ⟨out2, ho, ?_⟩
    simp only [hr, decide_False, if_false, he]
    have : (e.reverse ++ out2).length ≠ 0 := by
      cases e with
      | nil => exact absurd rfl h0
      | cons c cs => simp
    rw [if_neg this]

theorem takeWhile_element (l out : List Char) (hs : '/' ∉ l)
    (ho : out = [] ∨ out.head? = some '/') :
    (l ++ out).takeWhile (· ≠ '/') = l := by
  induction l with
  | nil =>
    rcases ho with rfl | h
    · rfl
    · cases out with
      | nil => rfl
      | cons a t =>
        have : a = '/' := by simpa using h
        simp [List.takeWhile, this]
  | cons c cs ih =>
    have hc : c ≠ '/' := fun h => hs (by simp [h])
    have hcs : '/' ∉ cs := fun h => hs (List.mem_cons_of_mem _ h)
    have ih1 := ih hcs
    simp only [List.cons_append, List.takeWhile, ne_eq, hc, not_false_eq_true, decide_True]
    exact congrArg (c :: ·) ih1

theorem path.Base_last (e out : List Char) (h0 : e ≠ []) (hs : '/' ∉ e)
    (ho : out = [] ∨ out.head? = some '/') :
    path.Base ⟨(e.reverse ++ out).reverse⟩ = ⟨e⟩ := by
  have hne : (⟨(e.reverse ++ out).reverse⟩ : String) ≠ "" := by
    intro h
    have := congrArg String.data h
    simp at this
    exact h0 this.2
  have hs1 : '/' ∉ e.reverse := by simpa using hs
  have hdrop : (e.reverse ++ out).dropWhile (· = '/') = e.reverse ++ out := by
    cases he : e.reverse with
    | nil => simp at he; exact absurd he h0
    | cons c cs =>
      have hc : c ≠ '/' := fun h => hs1 (by simp [he, h])
      simp [List.dropWhile, hc]
  unfold path.Base
  rw [if_neg hne]
  simp only [List.reverse_reverse, hdrop, takeWhile_element _ _ hs1 ho]
  simp [h0]

theorem path.Clean_ne_empty (p : String) : path.Clean p ≠ "" := by
  have aux : ∀ out : List Char,
      (if out.length = 0 then "." else (⟨out.reverse⟩ : String)) ≠ "" := by
    intro out
    split
    · decide
    · rename_i h
      intro h1
      have := congrArg String.data h1
      simp at this
      simp [this] at h
  unfold path.Clean
  split
  · decide
  · exact aux _

theorem path.Base_slash (p : String) : path.Base p = "/" ∨ '/' ∉ (path.Base p).data := by
  unfold path.Base
  split
  · right; decide
  · simp only
    split
    · left; rfl
    · right
      intro h
      have h1 := List.mem_takeWhile_imp (List.mem_reverse.mp h)
      simp at h1

theorem strings.Split.loop_head (sep : List Char) (cs : List Char) :
    ∀ cur, ∃ hd rest tl, cs = hd ++ rest ∧ (rest = [] ∨ sep.isPrefixOf rest = true) ∧
      strings.Split.loop sep cs 0 cur = (cur ++ hd) :: tl := by
  induction cs with
  | nil => exact fun cur => ⟨[], [], [], rfl, Or.inl rfl, by simp [strings.Split.loop]⟩
  | cons c cs ih =>
    intro cur
    by_cases h : sep.isPrefixOf (c :: cs) = true
    · exact ⟨[], c :: cs, strings.Split.loop sep cs (sep.length - 1) [], rfl, Or.inr h,
        by simp [strings.Split.loop, h]⟩
    · obtain ⟨hd, rest, tl, h1, h2, h3⟩ := ih (cur ++ [c])
      refine ⟨c :: hd, rest, tl, by simp [h1], h2, ?_⟩
      simp [strings.Split.loop, h, h3]

theorem strings.Split_head (b : String) :
    ∃ hd rest, b.data = hd ++ rest ∧ (rest = [] ∨ ".go".data.isPrefixOf rest = true) ∧
      (strings.Split b ".go").headD "" = ⟨hd⟩ := by
  obtain ⟨hd, rest, tl, h1, h2, h3⟩ := strings.Split.loop_head ".go".data b.data []
  refine ⟨hd, rest, h1, h2, ?_⟩
  unfold strings.Split
  rw [if_neg (by decide), h3]
  rfl

theorem path.Join_pair (D F : String) (hD : D ≠ "") :
    path.Join [D, F] = path.Clean ⟨D.data ++ '/' :: F.data⟩ := by
  have hlen : D.length ≠ 0 := by
    intro h
    apply hD
    apply String.ext
    exact List.length_eq_zero.mp h
  unfold path.Join
  have hsize : ¬ (([D, F].map String.length).sum = 0) := by
    simp only [List.map, List.sum_cons, List.sum_nil]
    omega
  simp only [hsize, if_false]
  congr 1
  apply String.ext
  simp [List.foldl, hD, hlen, Nat.pos_of_ne_zero hlen]

theorem companionPath_ne (file : String) : companionPath file ≠ file := by
  intro heq
  obtain ⟨hd, rest, hb, hrest, hhead⟩ := strings.Split_head (path.Base file)
  have hD : path.Dir file ≠ "" := path.Clean_ne_empty _
  have hcomp : companionPath file =
      path.Clean ⟨(path.Dir file).data ++ '/' :: (hd ++ ".fail.go".data)⟩ := by
    unfold companionPath
    rw [path.Join_pair _ _ hD, hhead]
    rfl
  rcases path.Base_slash file with hslash | hslash
  · rw [hslash] at hb hhead
    have hhd : hd = ['/'] := by
      have h1 : (strings.Split "/" ".go").headD "" = "/" := by decide
      rw [h1] at hhead
      exact (congrArg String.data hhead).symm
    have hshape : (path.Dir file).data ++ '/' :: (hd ++ ".fail.go".data) =
        ((path.Dir file).data ++ ['/']) ++ '/' :: ".fail.go".data := by
      rw [hhd]; simp
    rw [hshape] at hcomp
    obtain ⟨out, ho, hc⟩ := path.Clean_last ((path.Dir file).data ++ ['/']) ".fail.go".data
      (by decide) (by decide) (by decide) (by decide)
    have hbase := path.Base_last ".fail.go".data out (by decide) (by decide) ho
    rw [← hc, ← hcomp, heq, hslash] at hbase
    exact absurd hbase (by decide)
  · have hs : '/' ∉ hd ++ ".fail.go".data := by
      intro h
      rcases List.mem_append.mp h with h | h
      · exact hslash (by rw [hb]; exact List.mem_append_left _ h)
      · exact absurd h (by decide)
    have hlen : 8 ≤ (hd ++ ".fail.go".data).length := by
      rw [List.length_append]
      have : ".fail.go".data.length = 8 := by decide
      omega
    have h0 : hd ++ ".fail.go".data ≠ [] := by
      intro h; rw [h] at hlen; simp at hlen
    have h1 : hd ++ ".fail.go".data ≠ ['.'] := by
      intro h; rw [h] at hlen; simp at hlen
    have h2 : hd ++ ".fail.go".data ≠ ['.', '.'] := by
      intro h; rw [h] at hlen; simp at hlen
    obtain ⟨out, ho, hc⟩ := path.Clean_last (path.Dir file).data _ h0 hs h1 h2
    have hbase := path.Base_last _ out h0 hs ho
    rw [← hc, ← hcomp, heq] at hbase
    have hdata := congrArg String.data hbase
    simp only at hdata
    rw [hb] at hdata
    have hr : rest = ".fail.go".data := List.append_cancel_left hdata
    rw [hr] at hrest
    exact absurd hrest (by decide)

/-! ## One file through enable and disable: facts -/

/-- A rewrite that returns no error, of a regular file on which the transform reports a
marker, puts the transform's output in the place of the file. -/
theorem xfrmFile_replace {xfrm : xfrmFunc} {path : String} {w v : World}
    {l : List Failpoint} {c : Bytes} (hsrc : w.fs path = some (.file c))
    (hfps : (xfrm (.ok c)).fps ≠ []) (hok : xfrmFile xfrm path w = ((l, none), v)) :
    l = (xfrm (.ok c)).fps ∧ v.fs path = some (.file (xfrm (.ok c)).written) ∧
      v.fs (path ++ ".tmp") = none ∧
      ∀ q, q ≠ path → q ≠ path ++ ".tmp" → v.fs q = w.fs q := by
  have hne : path ++ ".tmp" ≠ path := tmp_ne path
  rcases xfrmFile_cases xfrm path w with ⟨e, _, h⟩ | ⟨n, e, _, _, _, _, h⟩ |
    ⟨n, hn, _, _, ⟨hx, h⟩ | ⟨_, _, e, h⟩ | ⟨_, _, _, h⟩⟩
  · rw [h] at hok; cases hok
  · rw [h] at hok; cases hok
  · rw [hsrc] at hn
    cases hn
    rw [h] at hok
    simp only [Prod.mk.injEq] at hok
    rcases hx with hx | hx
    · exact absurd hok.1.2 hx
    · exact absurd hx hfps
  · rw [h] at hok; cases hok
  · rw [hsrc] at hn
    cases hn
    rw [h] at hok
    simp only [Prod.mk.injEq] at hok
    obtain ⟨⟨hl, _⟩, hv⟩ := hok
    subst hv
    refine ⟨hl.symm, ?_, ?_, ?_⟩
    · simp [File.reader]
    · simp [hne]
    · intro q h1 h2
      simp [h1, h2, xfrmFile.staged_fs]

/-- A rewrite that returns no error, of a regular file on which the transform reports no
marker, returns no marker and leaves the name space as it was. -/
theorem xfrmFile_keep {xfrm : xfrmFunc} {path : String} {w v : World}
    {l : List Failpoint} {c : Bytes} (hsrc : w.fs path = some (.file c))
    (hfps : (xfrm (.ok c)).fps = []) (hok : xfrmFile xfrm path w = ((l, none), v)) :
    l = [] ∧ v.fs = w.fs := by
  rcases xfrmFile_cases xfrm path w with ⟨e, _, h⟩ | ⟨n, e, _, _, _, _, h⟩ |
    ⟨n, hn, _, hfree, ⟨hx, h⟩ | ⟨_, _, e, h⟩ | ⟨_, h0, _, h⟩⟩
  · rw [h] at hok; cases hok
  · rw [h] at hok; cases hok
  · rw [h] at hok
    simp only [Prod.mk.injEq] at hok
    obtain ⟨⟨hl, _⟩, hv⟩ := hok
    subst hv
    exact ⟨hl.symm, xfrmFile.discard_fs _ hfree
      (fun q hq => by simp [hq, xfrmFile.staged_fs])⟩
  · rw [h] at hok; cases hok
  · rw [hsrc] at hn
    cases hn
    exact absurd hfps h0

/-- An enable batch over one file that runs through is the rewrite of the file and then
`writeBinding` with the markers of the rewrite. -/
theorem main.batch_enable_one {xfrm : xfrmFunc} {NewBinding : Renderer} {file : String}
    {w v : World} (h : main.batch xfrm true NewBinding [file] w = (.ok (), v)) :
    ∃ l u, xfrmFile xfrm file w = ((l, none), u) ∧
      writeBinding NewBinding file l u = (.ok (), v) := by
  unfold main.batch at h
  simp only [main.rewriteLoop] at h
  rcases hx : xfrmFile xfrm file w with ⟨⟨l, _ | e⟩, u⟩
  · rw [hx] at h
    simp only [List.nil_append, if_true, main.bindLoop] at h
    refine ⟨l, u, rfl, ?_⟩
    rcases hb : writeBinding NewBinding file l u with ⟨_ | _, u1⟩
    · rw [hb] at h; cases h
    · rw [hb] at h
      simp only [Prod.mk.injEq] at h
      rw [h.2]
  · rw [hx] at h
    simp only [exitWith] at h
    cases h

/-- A disable batch over one file that runs through is the rewrite of the file and then
the removal of its companion. -/
theorem main.batch_disable_one {xfrm : xfrmFunc} {NewBinding : Renderer} {file : String}
    {w v : World} (h : main.batch xfrm false NewBinding [file] w = (.ok (), v)) :
    ∃ l u, xfrmFile xfrm file w = ((l, none), u) ∧
      v = (os.Remove (companionPath file) u).2 := by
  unfold main.batch at h
  simp only [main.rewriteLoop] at h
  rcases hx : xfrmFile xfrm file w with ⟨⟨l, _ | e⟩, u⟩
  · rw [hx] at h
    simp only [List.nil_append, Bool.false_eq_true, if_false, main.removeLoop,
      Prod.mk.injEq, true_and] at h
    exact ⟨l, u, rfl, h.symm⟩
  · rw [hx] at h
    simp only [exitWith] at h
    cases h

/-- A rewrite loop that runs through a list with `f` in it has run through the files
before `f`, has then rewritten `f` without error, and has put the markers of that rewrite
at the place of `f` in the list it returns. -/
theorem main.rewriteLoop_split {xfrm : xfrmFunc} {pre post : List String} {f : String}
    {fps : List (List Failpoint)} {w v : World}
    (h : main.rewriteLoop xfrm (pre ++ f :: post) [] w = (.ok fps, v)) :
    ∃ fpre l fpost u u1, fps = fpre ++ l :: fpost ∧ fpre.length = pre.length ∧
      fpost.length = post.length ∧ main.rewriteLoop xfrm pre [] w = (.ok fpre, u) ∧
      xfrmFile xfrm f u = ((l, none), u1) := by
  rw [main.rewriteLoop_append] at h
  rcases hp : main.rewriteLoop xfrm pre [] w with ⟨_ | fpre, u⟩
  · rw [hp] at h; cases h
  · rw [hp] at h
    simp only at h
    rw [main.rewriteLoop] at h
    rcases hx : xfrmFile xfrm f u with ⟨⟨l, _ | e⟩, u1⟩
    · rw [hx] at h
      simp only at h
      obtain ⟨⟨got, hg, hlen⟩, _, _⟩ := main.rewriteLoop_ok h
      obtain ⟨⟨got0, hg0, hlen0⟩, _, _⟩ := main.rewriteLoop_ok hp
      refine ⟨fpre, l, got, u, u1, by rw [hg]; simp, ?_, hlen, rfl, hx⟩
      rw [hg0]; simpa using hlen0
    · rw [hx] at h
      cases h

/-! ## The run: the claims -/

/-- C10: when the files found are `pre ++ fk :: post`, the rewrites of `pre` go through
and `xfrmFile` returns an error at `fk`, the run (enable or disable) ends there with exit
code 1, in the world that the failed rewrite left plus the error printed. The name space
is the one the rewrites of `pre` produced, so `fk` holds what it held; after discovery
every call made belongs to the rewrite of a file of `pre` or of `fk`, so no file of
`post` is opened and no companion is created or removed. -/
theorem main_aborts_at_first_error (ToFailpoints ToComments : xfrmFunc)
    (NewBinding : Renderer) (prog cmd : String) (xfrm : xfrmFunc) (args : List String)
    (w w1 w2 w3 : World) (pre post : List String) (fk : String)
    (fps : List (List Failpoint)) (l : List Failpoint) (err : Error)
    (hcmd : (cmd = "enable" ∧ xfrm = ToFailpoints) ∨ (cmd = "disable" ∧ xfrm = ToComments))
    (hfiles : paths2files args w = (.ok (pre ++ fk :: post), w1))
    (hpre : main.rewriteLoop xfrm pre [] w1 = (.ok fps, w2))
    (herr : xfrmFile xfrm fk w2 = ((l, some err), w3)) :
    main ToFailpoints ToComments NewBinding (prog :: cmd :: args) w =
      (.error 1, w3.log (.println (.err err))) ∧
    w3.fs = w2.fs ∧
    (∀ q, (∀ f ∈ pre, q ≠ f ∧ q ≠ f ++ ".tmp") → w3.fs q = w.fs q) ∧
    (∃ calls, w2.trace = w1.trace ++ calls ∧ ∀ c ∈ calls, ∃ f ∈ pre, Event.rewrites f c) ∧
    (∃ calls, w3.trace = w2.trace ++ calls ∧ ∀ c ∈ calls, Event.rewrites fk c) := by
  have hfs : w3.fs = w2.fs := by
    have := @xfrmFile_error_fs xfrm fk w2 err (by rw [herr])
    rw [herr] at this
    exact this
  have hag : w.agree w1 := by
    have := (paths2files.loop_spec args [] w).2
    have h2 : w.agree (paths2files args w).2 := by
      unfold paths2files os.Getwd
      by_cases hl : args.length = 0
      · simp only [hl, if_true]
        cases hg : w.getwd with
        | error e => exact w.agree_refl
        | ok wd => exact (paths2files.loop_spec [wd] [] (w.log .getwd)).2
      · simp only [hl, if_false]
        exact this
    rw [hfiles] at h2
    exact h2
  obtain ⟨_, htr, hfr⟩ := main.rewriteLoop_ok hpre
  have hrun : main.run xfrm (cmd = "enable") NewBinding args w =
      (.error 1, w3.log (.println (.err err))) := by
    unfold main.run main.batch
    rw [hfiles]
    simp only
    rw [main.rewriteLoop_append, hpre]
    simp only [main.rewriteLoop, herr]
    rfl
  refine ⟨?_, hfs, ?_, htr, ?_⟩
  · rcases hcmd with ⟨rfl, rfl⟩ | ⟨rfl, rfl⟩
    · rw [main_enable]
      simpa using hrun
    · rw [main_disable]
      simpa using hrun
  · intro q hq
    rw [hfs, hfr q hq, hag.1]
  · have := xfrmFile_trace xfrm fk w2
    rw [herr] at this
    exact this

theorem main_aborts_at_first_error_witness :
    (main Sample.activate Sample.deactivate Sample.render
      ["gofail", "enable", "/d", "/d/sub/n.go"] Sample.stuck).1 = .error 1 :=
  congrArg Prod.fst
    (main_aborts_at_first_error Sample.activate Sample.deactivate Sample.render
      "gofail" "enable" Sample.activate ["/d", "/d/sub/n.go"] Sample.stuck
      (paths2files ["/d", "/d/sub/n.go"] Sample.stuck).2
      (main.rewriteLoop Sample.activate ["/d/a.go"] []
        (paths2files ["/d", "/d/sub/n.go"] Sample.stuck).2).2
      (xfrmFile Sample.activate "/d/b.go"
        (main.rewriteLoop Sample.activate ["/d/a.go"] []
          (paths2files ["/d", "/d/sub/n.go"] Sample.stuck).2).2).2
      ["/d/a.go"] ["/d/sub/n.go"] "/d/b.go" [[⟨"fp", "int"⟩]] []
      (.pathError "open" "/d/b.go.tmp" .EEXIST)
      (Or.inl ⟨rfl, rfl⟩) rfl rfl rfl).1

/-- C9, as stated, fails: a directory that is not empty stands at the companion path of
`/d/b.go`; the disable run over `/d/b.go` rewrites the file without error, attempts the
removal, ends without error, and the directory still stands at the companion path. -/
theorem disable_companion_directory_stays :
    (paths2files ["/d/b.go"] Sample.blocked).1 = .ok ["/d/b.go"] ∧
    (main.rewriteLoop Sample.deactivate ["/d/b.go"] []
      (paths2files ["/d/b.go"] Sample.blocked).2).1 = .ok [[]] ∧
    (main Sample.activate Sample.deactivate Sample.render ["gofail", "disable", "/d/b.go"]
      Sample.blocked).1 = .ok () ∧
    companionPath "/d/b.go" = "/d/b.fail.go" ∧
    Event.remove "/d/b.fail.go" ∈
      (main Sample.activate Sample.deactivate Sample.render ["gofail", "disable", "/d/b.go"]
        Sample.blocked).2.trace ∧
    (main Sample.activate Sample.deactivate Sample.render ["gofail", "disable", "/d/b.go"]
      Sample.blocked).2.fs (companionPath "/d/b.go") = some (.dir ["x"]) :=
  ⟨rfl, rfl, rfl, by decide, by decide, by decide⟩

/-- C9, amended: in a disable run in which discovery and every rewrite go through, the run
ends without error, and after the rewrites it makes exactly one call for each file found,
in order: the removal of that file's companion path, whatever markers its rewrite
reported. Afterwards no companion path of a file found holds a regular file: it is free,
or a directory that is not empty stands there. Every name that is not a file found, its
temporary file or its companion path holds what it held before the run. -/
theorem main_disable_removes_companions (ToFailpoints ToComments : xfrmFunc)
    (NewBinding : Renderer) (prog : String) (args : List String) (w w1 w2 : World)
    (files : List String) (fps : List (List Failpoint))
    (hfiles : paths2files args w = (.ok files, w1))
    (hrw : main.rewriteLoop ToComments files [] w1 = (.ok fps, w2)) :
    (main ToFailpoints ToComments NewBinding (prog :: "disable" :: args) w).1 = .ok () ∧
    (main ToFailpoints ToComments NewBinding (prog :: "disable" :: args) w).2.trace =
      w2.trace ++ files.map (fun f => Event.remove (companionPath f)) ∧
    (∀ f ∈ files, ∀ content,
      (main ToFailpoints ToComments NewBinding (prog :: "disable" :: args) w).2.fs
        (companionPath f) ≠ some (.file content)) ∧
    (∀ f ∈ files,
      (main ToFailpoints ToComments NewBinding (prog :: "disable" :: args) w).2.fs
        (companionPath f) = none ∨
      ∃ x names,
        (main ToFailpoints ToComments NewBinding (prog :: "disable" :: args) w).2.fs
          (companionPath f) = some (.dir (x :: names))) ∧
    (∀ q, (∀ f ∈ files, q ≠ f ∧ q ≠ f ++ ".tmp" ∧ q ≠ companionPath f) →
      (main ToFailpoints ToComments NewBinding (prog :: "disable" :: args) w).2.fs q =
        w.fs q) := by
  have hmain : main ToFailpoints ToComments NewBinding (prog :: "disable" :: args) w =
      (.ok (), main.removeLoop files w2) := by
    rw [main_disable]
    unfold main.run main.batch
    rw [hfiles]
    simp only
    rw [hrw]
    rfl
  have hag : w.agree w1 := by
    have h2 : w.agree (paths2files args w).2 := by
      unfold paths2files os.Getwd
      by_cases hl : args.length = 0
      · simp only [hl, if_true]
        cases hg : w.getwd with
        | error e => exact w.agree_refl
        | ok wd => exact (paths2files.loop_spec [wd] [] (w.log .getwd)).2
      · simp only [hl, if_false]
        exact (paths2files.loop_spec args [] w).2
    rw [hfiles] at h2
    exact h2
  obtain ⟨_, _, hfr⟩ := main.rewriteLoop_ok hrw
  rw [hmain]
  refine ⟨rfl, main.removeLoop_trace files w2, ?_, fun f hf => main.removeLoop_at files w2 f hf,
    ?_⟩
  · intro f hf content hc
    rcases main.removeLoop_at files w2 f hf with h | ⟨x, names, h⟩
    · rw [h] at hc; cases hc
    · rw [h] at hc; cases hc
  · intro q hq
    rcases main.removeLoop_other files w2 q with h | ⟨⟨f, hf, hqf⟩, _⟩
    · show (main.removeLoop files w2).fs q = w.fs q
      rw [h, hfr q (fun f hf => ⟨(hq f hf).1, (hq f hf).2.1⟩), hag.1]
    · exact absurd hqf (hq f hf).2.2

theorem main_disable_removes_companions_witness :
    (main Sample.activate Sample.deactivate Sample.render ["gofail", "disable", "/d"]
      (main Sample.activate Sample.deactivate Sample.render ["gofail", "enable", "/d"]
        Sample.world).2).2.fs (companionPath "/d/a.go") = none ∨
    ∃ x names,
      (main Sample.activate Sample.deactivate Sample.render ["gofail", "disable", "/d"]
        (main Sample.activate Sample.deactivate Sample.render ["gofail", "enable", "/d"]
          Sample.world).2).2.fs (companionPath "/d/a.go") = some (.dir (x :: names)) :=
  (main_disable_removes_companions Sample.activate Sample.deactivate Sample.render "gofail"
    ["/d"]
    (main Sample.activate Sample.deactivate Sample.render ["gofail", "enable", "/d"]
      Sample.world).2
    (paths2files ["/d"]
      (main Sample.activate Sample.deactivate Sample.render ["gofail", "enable", "/d"]
        Sample.world).2).2
    (main.rewriteLoop Sample.deactivate ["/d/a.go", "/d/b.go"] []
      (paths2files ["/d"]
        (main Sample.activate Sample.deactivate Sample.render ["gofail", "enable", "/d"]
          Sample.world).2).2).2
    ["/d/a.go", "/d/b.go"] [[⟨"fp", "int"⟩], []] rfl rfl).2.2.2.1 "/d/a.go" (by decide)

/-- C6, as stated, fails: in this enable run both rewrites go through and `/d/b.go`
reports a marker, but the companion of `/d/a.go` cannot be created, the run ends there,
and no file is ever written at the companion path of `/d/b.go`. -/
theorem enable_companion_not_written :
    (paths2files ["/d"] Sample.locked).1 = .ok ["/d/a.go", "/d/b.go"] ∧
    (main.rewriteLoop Sample.activate ["/d/a.go", "/d/b.go"] []
      (paths2files ["/d"] Sample.locked).2).1 = .ok [[⟨"fp", "int"⟩], [⟨"fp", "int"⟩]] ∧
    (main Sample.activate Sample.deactivate Sample.render ["gofail", "enable", "/d"]
      Sample.locked).1 = .error 1 ∧
    (main Sample.activate Sample.deactivate Sample.render ["gofail", "enable", "/d"]
      Sample.locked).2.fs (companionPath "/d/b.go") = none ∧
    Event.openFile (companionPath "/d/b.go") os.O_RDWR_CREATE_TRUNC ∉
      (main Sample.activate Sample.deactivate Sample.render ["gofail", "enable", "/d"]
        Sample.locked).2.trace :=
  ⟨rfl, rfl, rfl, by decide, by decide⟩

/-- C6, amended: in an enable run that runs to its end (discovery, every rewrite and every
creation of a companion), take any entry `f` of the list of files found. Its marker list
is the list the activate transform returned when `f` was rewritten, on what `f` held
then. If that list is not empty, the companion of `f` is created or truncated and the
rendered text written to it during the run, and a regular file stands there afterwards.
If no other entry of the list has the companion path of `f`, a file is created or written
at that path during the run only if the list is not empty, and with an empty list the
path holds afterwards what it held after the rewrites. The calls made after the rewrites
are exactly, in the order of the files, the creation and the write for each file with
markers; every name that is not the companion path of a file with markers is as the
rewrites left it; and with an empty marker list `writeBinding` returns the world it was
given. -/
theorem main_enable_writes_companions (ToFailpoints ToComments : xfrmFunc)
    (NewBinding : Renderer) (prog : String) (args : List String) (w w1 w2 w3 : World)
    (files : List String) (fps : List (List Failpoint))
    (hfiles : paths2files args w = (.ok files, w1))
    (hrw : main.rewriteLoop ToFailpoints files [] w1 = (.ok fps, w2))
    (hdone : main ToFailpoints ToComments NewBinding (prog :: "enable" :: args) w =
      (.ok (), w3)) :
    fps.length = files.length ∧
    w3.trace = w2.trace ++ main.bindCalls NewBinding files fps ∧
    (∀ pre f post, files = pre ++ f :: post →
      ∃ fpre l fpost u n, fps = fpre ++ l :: fpost ∧ fpre.length = pre.length ∧
        main.rewriteLoop ToFailpoints pre [] w1 = (.ok fpre, u) ∧ u.fs f = some n ∧
        l = (ToFailpoints (File.reader ⟨f, n⟩)).fps ∧
        (l ≠ [] →
          Event.openFile (companionPath f) os.O_RDWR_CREATE_TRUNC ∈
            main.bindCalls NewBinding files fps ∧
          Event.write (companionPath f) (NewBinding (path.Base (path.Dir f)) l) ∈
            main.bindCalls NewBinding files fps ∧
          ∃ content, w3.fs (companionPath f) = some (.file content)) ∧
        ((∀ g ∈ pre ++ post, companionPath g ≠ companionPath f) →
          (∀ c ∈ main.bindCalls NewBinding files fps,
            ((∃ flag, c = .openFile (companionPath f) flag) ∨
              (∃ content, c = .write (companionPath f) content)) → l ≠ []) ∧
          (l = [] → w3.fs (companionPath f) = w2.fs (companionPath f)))) ∧
    (∀ e ∈ files.zip fps, e.2 ≠ [] →
      Event.openFile (companionPath e.1) os.O_RDWR_CREATE_TRUNC ∈
        main.bindCalls NewBinding files fps ∧
      Event.write (companionPath e.1) (NewBinding (path.Base (path.Dir e.1)) e.2) ∈
        main.bindCalls NewBinding files fps ∧
      ∃ content, w3.fs (companionPath e.1) = some (.file content)) ∧
    (∀ c ∈ main.bindCalls NewBinding files fps, ∃ e ∈ files.zip fps, e.2 ≠ [] ∧
      (c = .openFile (companionPath e.1) os.O_RDWR_CREATE_TRUNC ∨
        c = .write (companionPath e.1) (NewBinding (path.Base (path.Dir e.1)) e.2))) ∧
    (∀ q, (∀ e ∈ files.zip fps, e.2 ≠ [] → q ≠ companionPath e.1) → w3.fs q = w2.fs q) ∧
    (∀ file u, writeBinding NewBinding file [] u = (.ok (), u)) ∧
    (∀ file u v l, xfrmFile ToFailpoints file u = ((l, none), v) →
      ∃ n, u.fs file = some n ∧ l = (ToFailpoints (File.reader ⟨file, n⟩)).fps) := by
  have hbind : main.bindLoop NewBinding files fps w2 = (.ok (), w3) := by
    rw [main_enable] at hdone
    unfold main.run main.batch at hdone
    rw [hfiles] at hdone
    simp only at hdone
    rw [hrw] at hdone
    simpa using hdone
  obtain ⟨⟨got, hg, hlen⟩, _, _⟩ := main.rewriteLoop_ok hrw
  obtain ⟨h1, h2, h3⟩ := main.bindLoop_ok hbind
  obtain ⟨m1, m2⟩ := main.bindCalls_mem NewBinding files fps
  refine ⟨by rw [hg]; simpa using hlen, h1, ?_, ?_, m1, h2,
    fun file u => writeBinding_nil NewBinding file u, ?_⟩
  · intro pre f post hsplit
    subst hsplit
    obtain ⟨fpre, l, fpost, u, u1, hfps, hlpre, _, hpre, hx⟩ := main.rewriteLoop_split hrw
    obtain ⟨n, hn, hl, _⟩ := xfrmFile_ok_fps hx
    have hzip : (pre ++ f :: post).zip fps = pre.zip fpre ++ (f, l) :: post.zip fpost := by
      rw [hfps, List.zip_append hlpre.symm]
      rfl
    have hmem : (f, l) ∈ (pre ++ f :: post).zip fps := by
      rw [hzip]; simp
    have honly : (∀ g ∈ pre ++ post, companionPath g ≠ companionPath f) →
        ∀ e ∈ (pre ++ f :: post).zip fps, companionPath e.1 = companionPath f → e = (f, l) := by
      intro huniq e he hce
      rw [hzip] at he
      rcases List.mem_append.mp he with he | he
      · exact absurd hce (huniq e.1 (List.mem_append_left _ (List.of_mem_zip he).1))
      · rcases List.mem_cons.mp he with he | he
        · exact he
        · exact absurd hce (huniq e.1 (List.mem_append_right _ (List.of_mem_zip he).1))
    refine ⟨fpre, l, fpost, u, n, hfps, hlpre, hpre, hn, hl, ?_, ?_⟩
    · intro hne
      exact ⟨(m2 (f, l) hmem hne).1, (m2 (f, l) hmem hne).2, h3 (f, l) hmem hne⟩
    · intro huniq
      refine ⟨?_, ?_⟩
      · intro c hc hat
        obtain ⟨e, he, hene, hce⟩ := m1 c hc
        have hpath : companionPath e.1 = companionPath f := by
          rcases hat with ⟨flag, hflag⟩ | ⟨content, hcontent⟩
          · rcases hce with hce | hce
            · rw [hflag] at hce
              simp only [Event.openFile.injEq] at hce
              exact hce.1.symm
            · rw [hflag] at hce; cases hce
          · rcases hce with hce | hce
            · rw [hcontent] at hce; cases hce
            · rw [hcontent] at hce
              simp only [Event.write.injEq] at hce
              exact hce.1.symm
        have := honly huniq e he hpath
        rw [this] at hene
        exact hene
      · intro hnil
        apply h2
        intro e he hene hq
        have := honly huniq e he hq.symm
        rw [this] at hene
        exact hene hnil
  · intro e he hne
    exact ⟨(m2 e he hne).1, (m2 e he hne).2, h3 e he hne⟩
  · intro file u v l hx
    obtain ⟨n, hn, hl, _⟩ := xfrmFile_ok_fps hx
    exact ⟨n, hn, hl⟩

theorem main_enable_writes_companions_witness :
    (main Sample.activate Sample.deactivate Sample.render ["gofail", "enable", "/d"]
      Sample.world).2.trace =
    (main.rewriteLoop Sample.activate ["/d/a.go", "/d/b.go"] []
      (paths2files ["/d"] Sample.world).2).2.trace ++
      main.bindCalls Sample.render ["/d/a.go", "/d/b.go"] [[⟨"fp", "int"⟩], []] :=
  (main_enable_writes_companions Sample.activate Sample.deactivate Sample.render "gofail"
    ["/d"] Sample.world (paths2files ["/d"] Sample.world).2
    (main.rewriteLoop Sample.activate ["/d/a.go", "/d/b.go"] []
      (paths2files ["/d"] Sample.world).2).2
    (main Sample.activate Sample.deactivate Sample.render ["gofail", "enable", "/d"]
      Sample.world).2
    ["/d/a.go", "/d/b.go"] [[⟨"fp", "int"⟩], []] rfl rfl rfl).2.1

/-- C5, as stated, fails: `Sample.activate` and `Sample.mute` undo each other byte for byte
on the content of `/d/a.go`, the enable pipeline and then the disable pipeline both run to
their end, and yet the file holds the activated bytes afterwards: the deactivate transform
reported no marker, so its output was discarded. -/
theorem enable_disable_not_restored :
    Sample.world.fs "/d/a.go" = some (.file [0, 1, 3]) ∧
    (Sample.activate (.ok [0, 1, 3])).written = [0, 2, 3] ∧
    (Sample.mute (.ok [0, 2, 3])).written = [0, 1, 3] ∧
    (main.batch Sample.activate true Sample.render ["/d/a.go"] Sample.world).1 = .ok () ∧
    (main.batch Sample.mute false Sample.render ["/d/a.go"]
      (main.batch Sample.activate true Sample.render ["/d/a.go"] Sample.world).2).1 = .ok () ∧
    (main.batch Sample.mute false Sample.render ["/d/a.go"]
      (main.batch Sample.activate true Sample.render ["/d/a.go"] Sample.world).2).2.fs
        "/d/a.go" = some (.file [0, 2, 3]) :=
  ⟨by decide, by decide, by decide, rfl, rfl, by decide⟩

/-- C5, amended: let a source file hold `content`, let deactivate, reading what activate
writes for `content`, write `content` again, and let the two transforms agree on whether
there are markers: if activate reports one on `content`, deactivate reports one on the
activated bytes, and if activate reports none on `content`, deactivate reports none on
it either. If the enable pipeline on the file (the rewrite with activate, then
`writeBinding`) and after it the disable pipeline (the rewrite with deactivate, then the
removal of the companion) both run to their end, the file holds exactly `content`
afterwards and no regular file stands at its companion path: the path is free, unless a
directory that is not empty stood there from the start, which then still stands. -/
theorem enable_disable_restores (activate deactivate : xfrmFunc) (NewBinding : Renderer)
    (file : String) (content : Bytes) (w w1 w2 : World)
    (hsrc : w.fs file = some (.file content))
    (hinv : (deactivate (.ok (activate (.ok content)).written)).written = content)
    (hsome : (activate (.ok content)).fps ≠ [] →
      (deactivate (.ok (activate (.ok content)).written)).fps ≠ [])
    (hnone : (activate (.ok content)).fps = [] → (deactivate (.ok content)).fps = [])
    (hen : main.batch activate true NewBinding [file] w = (.ok (), w1))
    (hdis : main.batch deactivate false NewBinding [file] w1 = (.ok (), w2)) :
    w2.fs file = some (.file content) ∧
    (∀ c, w2.fs (companionPath file) ≠ some (.file c)) ∧
    (w2.fs (companionPath file) = none ∨
      ∃ x names, w.fs (companionPath file) = some (.dir (x :: names)) ∧
        w2.fs (companionPath file) = some (.dir (x :: names))) := by
  have hcomp : companionPath file ≠ file := companionPath_ne file
  obtain ⟨l1, u1, hx1, hb1⟩ := main.batch_enable_one hen
  obtain ⟨l2, u2, hx2, hv2⟩ := main.batch_disable_one hdis
  have key : w2.fs file = some (.file content) ∧
      (w2.fs (companionPath file) = none ∨
        ∃ x names, w.fs (companionPath file) = some (.dir (x :: names)) ∧
          w2.fs (companionPath file) = some (.dir (x :: names))) := by
    by_cases hf : (activate (.ok content)).fps = []
    · obtain ⟨hl1, hu1⟩ := xfrmFile_keep hsrc hf hx1
      subst hl1
      rw [writeBinding_nil] at hb1
      simp only [Prod.mk.injEq, true_and] at hb1
      subst hb1
      have hsrc1 : u1.fs file = some (.file content) := by rw [hu1]; exact hsrc
      obtain ⟨_, hu2⟩ := xfrmFile_keep hsrc1 (hnone hf) hx2
      have hfs : u2.fs = w.fs := hu2.trans hu1
      subst hv2
      refine ⟨?_, ?_⟩
      · rcases os.Remove_other (companionPath file) u2 file with h | ⟨h, _⟩
        · rw [h, hfs]; exact hsrc
        · exact absurd h.symm hcomp
      · rcases os.Remove_at (companionPath file) u2 with h | ⟨x, names, h⟩
        · exact Or.inl h
        · right
          refine ⟨x, names, ?_, h⟩
          rcases os.Remove_other (companionPath file) u2 (companionPath file) with h1 | ⟨_, h1⟩
          · rw [← hfs, ← h1]; exact h
          · rw [h1] at h; cases h
    · obtain ⟨hl1, hu1, _, _⟩ := xfrmFile_replace hsrc hf hx1
      have hl1ne : l1 ≠ [] := by rw [hl1]; exact hf
      rcases writeBinding_cases NewBinding file hl1ne u1 with ⟨e, h⟩ | h
      · rw [h] at hb1; cases hb1
      · rw [h] at hb1
        simp only [Prod.mk.injEq, true_and] at hb1
        subst hb1
        have hsrc1 : ((((u1.log (.openFile (companionPath file) os.O_RDWR_CREATE_TRUNC)).put
            (companionPath file) (some (.file []))).log
            (.write (companionPath file) (NewBinding (path.Base (path.Dir file)) l1))).put
            (companionPath file)
            (some (.file (NewBinding (path.Base (path.Dir file)) l1)))).fs file =
            some (.file (activate (.ok content)).written) := by
          simp [hcomp.symm, hu1]
        obtain ⟨_, hu2, htmp, hframe⟩ := xfrmFile_replace hsrc1 (hsome hf) hx2
        subst hv2
        refine ⟨?_, Or.inl ?_⟩
        · rcases os.Remove_other (companionPath file) u2 file with h | ⟨h, _⟩
          · rw [h, hu2, hinv]
          · exact absurd h.symm hcomp
        · have hat : u2.fs (companionPath file) = none ∨
              ∃ c, u2.fs (companionPath file) = some (.file c) := by
            by_cases ht : companionPath file = file ++ ".tmp"
            · left; rw [ht]; exact htmp
            · right
              rw [hframe _ hcomp ht]
              exact ⟨NewBinding (path.Base (path.Dir file)) l1, by simp⟩
          unfold os.Remove
          rcases hat with h | ⟨c, h⟩
          · simp [h]
          · simp [h]
  refine ⟨key.1, ?_, key.2⟩
  intro c hc
  rcases key.2 with h | ⟨x, names, _, h⟩
  · rw [h] at hc; cases hc
  · rw [h] at hc; cases hc

theorem enable_disable_restores_witness :
    (main.batch Sample.deactivate false Sample.render ["/d/a.go"]
      (main.batch Sample.activate true Sample.render ["/d/a.go"] Sample.world).2).2.fs
        "/d/a.go" = some (.file [0, 1, 3]) :=
  (enable_disable_restores Sample.activate Sample.deactivate Sample.render "/d/a.go"
    [0, 1, 3] Sample.world
    (main.batch Sample.activate true Sample.render ["/d/a.go"] Sample.world).2
    (main.batch Sample.deactivate false Sample.render ["/d/a.go"]
      (main.batch Sample.activate true Sample.render ["/d/a.go"] Sample.world).2).2
    (by decide) (by decide) (by decide) (by decide) rfl rfl).1

/-- C4: the code strips more than the extension. The base name is cut at the first `.go`
in it, not at the trailing one, so `/d/a.golden.go`, a source in `/d` with the extension
`.go`, gets the companion path of `/d/a.go`, and not `/d/a.golden.fail.go`. -/
theorem companionPath_cut_at_first :
    path.Ext "/d/a.golden.go" = ".go" ∧
    path.Dir "/d/a.golden.go" = path.Dir "/d/a.go" ∧
    "/d/a.golden.go" ≠ "/d/a.go" ∧
    companionPath "/d/a.golden.go" = "/d/a.fail.go" ∧
    companionPath "/d/a.go" = "/d/a.fail.go" ∧
    companionPath "/d/a.golden.go" ≠
      path.Join [path.Dir "/d/a.golden.go", "a.golden" ++ ".fail.go"] := by
  decide

end Failinject
